import Mathlib

/-!
Shallow embedding of the dependency-graph task scheduler
(`AgentCoordinator.executeTaskDAG` and friends in the coordinator module),
together with proofs of the specified properties.

The task collection is modelled as a `List (TaskStep α)`; list positions model
JavaScript object identity (ids may in principle repeat), and every in-place
mutation of a task object becomes a `List.set` at the object's position.  The
`any`-typed result payload is the type parameter `α`.  External collaborators
(the per-`agentType` executors behind `executeTask`, and the Lark notifier
behind `notifyTaskStart`/`notifyTaskComplete`/`notifyTaskFailed`) are oracles;
`Except.error` models a rejected promise.  The concurrent wave is modelled by
its synchronous prefix (every ready task is marked `running` before any
callback proceeds past its first `await`) followed by a sequential settling of
the callbacks, which is one admissible interleaving of the micro-task schedule.
-/

namespace Miyabi

/-- The four task states of `TaskStep.status`. -/
inductive Status where
  | pending
  | running
  | completed
  | failed
deriving DecidableEq, Repr

/-- The `TaskStep` interface: id, human-readable labels, the opaque
`agentType` tag, the dependency id list, the status, and the optional
`result` (`any`, modelled by `α`) and `error` payloads. -/
structure TaskStep (α : Type) where
  id : String
  name : String
  descr : String
  agentType : String
  dependencies : List String
  status : Status
  result : Option α
  error : Option String
deriving DecidableEq, Repr

/-- `new Map(tasks.map(t => [t.id, t]))` followed by `.get`: on duplicate keys
the later entry wins, hence the left fold keeping the last match.  The map is
built once from the initial array, but since ids, order and length never
change during a run, looking up in the current list is equivalent to the
original map of mutable objects. -/
def lookupTask (tasks : List (TaskStep α)) (i : String) : Option (TaskStep α) :=
  tasks.foldl (fun acc t => if t.id = i then some t else acc) none

/-- JS `Map.get` on the results map. -/
def mapGet (m : List (String × α)) (k : String) : Option α :=
  m.foldl (fun acc p => if p.1 = k then some p.2 else acc) none

/-- JS `Map.set` on the results map: overwrite in place when the key exists,
append otherwise. -/
def mapSet (m : List (String × α)) (k : String) (v : α) : List (String × α) :=
  if m.any (fun p => p.1 = k) then m.map (fun p => if p.1 = k then (k, v) else p)
  else m ++ [(k, v)]

/-- The dependency check of the ready filter:
`task.dependencies.every(depId => taskMap.get(depId)?.status === 'completed')`. -/
def depsSatisfied (tasks : List (TaskStep α)) (t : TaskStep α) : Bool :=
  t.dependencies.all fun d =>
    match lookupTask tasks d with
    | some dt => dt.status == Status.completed
    | none => false

/-- The `readyTasks` filter: `status === 'pending'` and all dependencies
completed. -/
def isReady (tasks : List (TaskStep α)) (t : TaskStep α) : Bool :=
  t.status == Status.pending && depsSatisfied tasks t

/-- `tasks.filter(...)` for the ready set, as positions into the list. -/
def readyIdxs (tasks : List (TaskStep α)) : List Nat :=
  (List.range tasks.length).filter fun i =>
    match tasks[i]? with
    | some t => isReady tasks t
    | none => false

/-- The error message written by the failure propagator. -/
def depFailMsg (failedId : String) : String :=
  "Dependency " ++ failedId ++ " failed"

/-- `tasks.filter(t => t.dependencies.includes(failedTaskId))`, as positions. -/
def dependentIdxs (failedId : String) (tasks : List (TaskStep α)) : List Nat :=
  (List.range tasks.length).filter fun i =>
    match tasks[i]? with
    | some t => t.dependencies.contains failedId
    | none => false

/-- The `catch` block's update of the failing task:
`task.status = 'failed'; task.error = <message>` (other fields kept). -/
def failedTask (t : TaskStep α) (e : String) : TaskStep α :=
  { t with status := Status.failed, error := some e }

/-- The `for (const task of dependents)` loop of the propagator, with the
recursive propagator call (at the next lower fuel) passed in as `rec`. -/
def markDepGoF (rec : String → List (TaskStep α) → List (TaskStep α))
    (failedId : String) : List Nat → List (TaskStep α) → List (TaskStep α)
  | [], tasks => tasks
  | i :: rest, tasks =>
    match tasks[i]? with
    | some t =>
      if t.status = Status.pending then
        markDepGoF rec failedId rest
          (rec t.id (tasks.set i (failedTask t (depFailMsg failedId))))
      else
        markDepGoF rec failedId rest tasks
    | none => markDepGoF rec failedId rest tasks

/-- `markDependentTasksAsFailed`: every dependent of `failedId` that is still
`pending` is marked `failed` with `depFailMsg failedId`, and the propagator
recurses on the newly failed task's id.  `fuel` bounds the recursion depth;
each recursive call follows a pending-to-failed flip, so any fuel above the
number of pending tasks reproduces the source's unbounded recursion. -/
def markDependentTasksAsFailed : Nat → String → List (TaskStep α) →
    List (TaskStep α)
  | 0, _, tasks => tasks
  | Nat.succ f, failedId, tasks =>
    markDepGoF (markDependentTasksAsFailed f) failedId
      (dependentIdxs failedId tasks) tasks

/-- The worklist pass at a given fuel (the shape the unfolding lemmas use). -/
def markDepGo (fuel : Nat) (failedId : String) (idxs : List Nat)
    (tasks : List (TaskStep α)) : List (TaskStep α) :=
  markDepGoF (markDependentTasksAsFailed fuel) failedId idxs tasks

/-- Observable calls to the external collaborators, recorded so the theorems
can speak about which executors and notifiers were invoked. -/
inductive Ev where
  | execCall (id : String)
  | startNote (id : String)
  | completeNote (id : String)
  | failNote (id : String)
deriving DecidableEq, Repr

/-- Scheduler state: the task array, the `results` map, and the call log. -/
structure St (α : Type) where
  tasks : List (TaskStep α)
  results : List (String × α)
  log : List Ev
deriving DecidableEq, Repr

/-- The external collaborators.  `exec` is `executeTask`'s dispatch on
`agentType` (the bundled `run*Agent` bodies are simulations; the properties
quantify over executor behaviour); the three notify functions are the Lark
notifications, where `Except.error` models `sendMessage` rejecting. -/
structure Agents (α : Type) where
  exec : TaskStep α → List (String × Option α) → Except String α
  notifyStart : TaskStep α → Except String Unit
  notifyComplete : TaskStep α → Except String Unit
  notifyFailed : TaskStep α → String → Except String Unit

/-- `dependencyResults` as computed in `executeTask`. -/
def depResults (t : TaskStep α) (results : List (String × α)) :
    List (String × Option α) :=
  t.dependencies.map fun d => (d, mapGet results d)

/-- The success branch's update of the completing task:
`task.status = 'completed'; task.result = result`. -/
def doneTask (t : TaskStep α) (v : α) : TaskStep α :=
  { t with status := Status.completed, result := some v }

/-- The `catch` block of the per-task callback: mark the task failed, store the
error message, call `notifyTaskFailed` (whose rejection escapes the callback
before the propagator runs), then run the failure propagator. -/
def failPath (ag : Agents α) (i : Nat) (t : TaskStep α) (e : String) (st : St α) :
    Except (String × St α) (St α) :=
  match ag.notifyFailed (failedTask t e) e with
  | Except.error e2 =>
      Except.error (e2, St.mk (st.tasks.set i (failedTask t e)) st.results
        (st.log ++ [Ev.failNote t.id]))
  | Except.ok _ =>
      Except.ok (St.mk
        (markDependentTasksAsFailed ((st.tasks.set i (failedTask t e)).length + 1) t.id
          (st.tasks.set i (failedTask t e)))
        st.results (st.log ++ [Ev.failNote t.id]))

/-- The body of one `Promise.all` callback after its task was marked `running`:
`notifyTaskStart`, then the executor, then on success store status/result and
`notifyTaskComplete`; any of the three throwing lands in `failPath`. -/
def handleTask (ag : Agents α) (i : Nat) (st : St α) :
    Except (String × St α) (St α) :=
  match st.tasks[i]? with
  | none => Except.ok st
  | some t =>
    match ag.notifyStart t with
    | Except.error e =>
        failPath ag i t e (St.mk st.tasks st.results (st.log ++ [Ev.startNote t.id]))
    | Except.ok _ =>
      match ag.exec t (depResults t st.results) with
      | Except.error e =>
          failPath ag i t e (St.mk st.tasks st.results
            ((st.log ++ [Ev.startNote t.id]) ++ [Ev.execCall t.id]))
      | Except.ok v =>
        match ag.notifyComplete (doneTask t v) with
        | Except.ok _ =>
            Except.ok (St.mk (st.tasks.set i (doneTask t v)) (mapSet st.results t.id v)
              (((st.log ++ [Ev.startNote t.id]) ++ [Ev.execCall t.id]) ++
                [Ev.completeNote t.id]))
        | Except.error e =>
            failPath ag i (doneTask t v) e
              (St.mk (st.tasks.set i (doneTask t v)) (mapSet st.results t.id v)
                (((st.log ++ [Ev.startNote t.id]) ++ [Ev.execCall t.id]) ++
                  [Ev.completeNote t.id]))

/-- Synchronous prefix of a wave: every ready task is set to `running` before
any callback proceeds past its first `await`. -/
def markRunning (idxs : List Nat) (tasks : List (TaskStep α)) : List (TaskStep α) :=
  idxs.foldl
    (fun ts i =>
      match ts[i]? with
      | some t => ts.set i { t with status := Status.running }
      | none => ts)
    tasks

/-- Settle the wave's callbacks one after the other (one admissible
interleaving); a rejection makes `Promise.all` reject. -/
def runHandlers (ag : Agents α) (idxs : List Nat) (st : St α) :
    Except (String × St α) (St α) :=
  match idxs with
  | [] => Except.ok st
  | i :: rest =>
    match handleTask ag i st with
    | Except.error e => Except.error e
    | Except.ok st' => runHandlers ag rest st'

/-- One `await Promise.all(readyTasks.map(...))` round. -/
def runWave (ag : Agents α) (idxs : List Nat) (st : St α) :
    Except (String × St α) (St α) :=
  runHandlers ag idxs
    { tasks := markRunning idxs st.tasks, results := st.results, log := st.log }

/-- Outcome of a run: normal return carrying the final state, an escaped
exception (a `notifyTaskFailed` rejection), or divergence (`timeout` stands
for the real loop sleeping and retrying forever). -/
inductive RunOutcome (α : Type) where
  | ok (st : St α)
  | thrown (e : String) (st : St α)
  | timeout
deriving DecidableEq, Repr

/-- The `while (tasks.some(t => pending || running))` loop: compute the ready
set; if it is empty, either sleep and retry (something `running`) or break
(stall / all settled); otherwise run a wave and loop. -/
def execLoop (ag : Agents α) : Nat → St α → RunOutcome α
  | 0, _ => RunOutcome.timeout
  | Nat.succ fuel, st =>
    if st.tasks.any (fun t => t.status == Status.pending || t.status == Status.running) then
      if (readyIdxs st.tasks).isEmpty then
        if st.tasks.any (fun t => t.status == Status.running) then
          execLoop ag fuel st
        else RunOutcome.ok st
      else
        match runWave ag (readyIdxs st.tasks) st with
        | Except.error (e, st') => RunOutcome.thrown e st'
        | Except.ok st' => execLoop ag fuel st'
    else RunOutcome.ok st

/-- `executeTaskDAG`: run the scheduling loop from the caller-supplied task
collection with an empty results map.  Fuel `tasks.length + 1` covers every
terminating execution, since every wave settles at least one pending task. -/
def executeTaskDAG (ag : Agents α) (tasks : List (TaskStep α)) : RunOutcome α :=
  execLoop ag (tasks.length + 1) { tasks := tasks, results := [], log := [] }

/-! ### Concrete instances

Sample tasks and collaborator bundles (with `α := Nat`) used to evaluate the
properties on concrete runs. -/

/-- A fresh pending task. -/
def mkT (i : String) (deps : List String) : TaskStep Nat :=
  { id := i, name := i, descr := i, agentType := "general-purpose",
    dependencies := deps, status := Status.pending, result := none, error := none }

def tA : TaskStep Nat := mkT "a" []

def tB : TaskStep Nat := mkT "b" ["a"]

def tX : TaskStep Nat := mkT "x" ["y"]

def tY : TaskStep Nat := mkT "y" ["x"]

/-- Collaborators that always succeed. -/
def okAgents : Agents Nat :=
  { exec := fun _ _ => Except.ok 1
    notifyStart := fun _ => Except.ok ()
    notifyComplete := fun _ => Except.ok ()
    notifyFailed := fun _ _ => Except.ok () }

/-- The task-started notifier rejects. -/
def agStartBad : Agents Nat :=
  { okAgents with notifyStart := fun _ => Except.error "notif-down" }

/-- The task-completed notifier rejects. -/
def agCompBad : Agents Nat :=
  { okAgents with notifyComplete := fun _ => Except.error "nc-down" }

/-- The executor rejects and so does the task-failed notifier. -/
def agFailBad : Agents Nat :=
  { okAgents with
    exec := fun _ _ => Except.error "boom"
    notifyFailed := fun _ _ => Except.error "nf-down" }

/-- Only the executor of task `a` rejects; all notifiers succeed. -/
def agExecBad : Agents Nat :=
  { okAgents with exec := fun t _ =>
      if t.id = "a" then Except.error "boom" else Except.ok 1 }

/-- A topological rank for the two-task chain `b` after `a`. -/
def rankAB : String → Nat := fun s => if s = "a" then 0 else 1

/-- Task `a` as the task-started notifier rejection leaves it. -/
def tAFailN : TaskStep Nat := { tA with status := Status.failed, error := some "notif-down" }

/-- Task `a` as the run of `okAgents` completes it. -/
def tADone : TaskStep Nat := { tA with status := Status.completed, result := some 1 }

/-- Task `a` as the task-completed notifier rejection leaves it. -/
def tACompBad : TaskStep Nat := { tA with status := Status.failed, result := some 1, error := some "nc-down" }

/-- Task `a` as its executor rejection leaves it. -/
def tAFailB : TaskStep Nat := { tA with status := Status.failed, error := some "boom" }

/-- Task `b` as the failure propagator leaves it after `a` failed. -/
def tBFailDep : TaskStep Nat := { tB with status := Status.failed, error := some "Dependency a failed" }

/-! ### The specification predicates -/

/-- Task ids are pairwise distinct (spec: "unique string identifier within one
scheduling run"). -/
def IdsNodup (l : List (TaskStep α)) : Prop := (l.map (fun t => t.id)).Nodup

/-- Effect of the failure propagator on one entry: unchanged, or a `pending`
task marked `failed` with a dependency message. -/
def FlipStep (t t' : TaskStep α) : Prop :=
  t' = t ∨ ∃ g, t.status = Status.pending ∧ t' = failedTask t (depFailMsg g)

/-- Effect of the wave's synchronous prefix on one entry. -/
def RunStep (t t' : TaskStep α) : Prop :=
  t' = t ∨ (t.status = Status.pending ∧ t' = { t with status := Status.running })

/-- Any net mutation of the run: identity fields are kept and only `pending`
or `running` entries ever change. -/
def Step (t t' : TaskStep α) : Prop :=
  t' = t ∨ (t'.id = t.id ∧ t'.name = t.name ∧ t'.descr = t.descr ∧
    t'.agentType = t.agentType ∧ t'.dependencies = t.dependencies ∧
    (t.status = Status.pending ∨ t.status = Status.running))

/-- Number of pending tasks, the propagator recursion measure. -/
def pendingCount (ts : List (TaskStep α)) : Nat :=
  ts.countP (fun t => t.status == Status.pending)

/-- No pending task has a failed dependency; the propagator's purpose is to
restore this after each failure. -/
def NPF (ts : List (TaskStep α)) : Prop :=
  ∀ (i j : Nat) (t u : TaskStep α), ts[i]? = some t → ts[j]? = some u →
    t.status = Status.pending → u.status = Status.failed → ¬ u.id ∈ t.dependencies

/-- Dependency `d` resolves to a completed task. -/
def CompletedAt (ts : List (TaskStep α)) (d : String) : Prop :=
  ∃ u, lookupTask ts d = some u ∧ u.status = Status.completed

def DepsCompleted (ts : List (TaskStep α)) (t : TaskStep α) : Prop :=
  ∀ d ∈ t.dependencies, CompletedAt ts d

/-- Every completed task was dispatched with completed dependencies. -/
def CompletedOK (ts : List (TaskStep α)) : Prop :=
  ∀ (i : Nat) (t : TaskStep α), ts[i]? = some t → t.status = Status.completed →
    DepsCompleted ts t

/-- Every running task was dispatched with completed dependencies. -/
def RunningOK (ts : List (TaskStep α)) : Prop :=
  ∀ (i : Nat) (t : TaskStep α), ts[i]? = some t → t.status = Status.running →
    DepsCompleted ts t

/-- Every executor invocation on record was of a task whose dependencies
resolve to completed tasks (completed tasks are frozen, so this is stable). -/
def LogOK (st : St α) : Prop :=
  ∀ s, Ev.execCall s ∈ st.log → ∃ (i : Nat) (t : TaskStep α),
    st.tasks[i]? = some t ∧ t.id = s ∧ DepsCompleted st.tasks t

/-- The completion notifier never rejects (needed for the field and results
invariants, which its rejection genuinely breaks). -/
def CompOK (ag : Agents α) : Prop :=
  ∀ (tc : TaskStep α) (e : String), ag.notifyComplete tc ≠ Except.error e

/-- Result/error field discipline: exactly one of `result`/`error` is set,
matching the status. -/
def FieldsOK (ts : List (TaskStep α)) : Prop :=
  ∀ (i : Nat) (t : TaskStep α), ts[i]? = some t →
    ((t.status = Status.pending ∨ t.status = Status.running) →
        t.result = none ∧ t.error = none) ∧
    (t.status = Status.completed → (∃ v, t.result = some v) ∧ t.error = none) ∧
    (t.status = Status.failed → t.result = none ∧ ∃ e, t.error = some e)

/-- The results map holds exactly the completed tasks' results. -/
def ResultsOK (st : St α) : Prop :=
  (st.results.map Prod.fst).Nodup ∧
  ∀ (k : String) (v : α), (k, v) ∈ st.results ↔
    ∃ (i : Nat) (t : TaskStep α), st.tasks[i]? = some t ∧ t.id = k ∧
      t.status = Status.completed ∧ t.result = some v

/-- The bundle of invariants carried through the run. -/
structure WInv (ag : Agents α) (st : St α) : Prop where
  nodup : IdsNodup st.tasks
  npf : NPF st.tasks
  completedOK : CompletedOK st.tasks
  runningOK : RunningOK st.tasks
  logOK : LogOK st
  fieldsOK : CompOK ag → FieldsOK st.tasks
  resultsOK : CompOK ag → ResultsOK st

/-- The producer contract: every supplied task is pending with no result or
error yet. -/
def InitialTasks (ts : List (TaskStep α)) : Prop :=
  ∀ t ∈ ts, t.status = Status.pending ∧ t.result = none ∧ t.error = none

/-- `DependsOn ts b a`: the task with id `b` reaches id `a` through the
dependency lists, directly or through a chain (claim C4's wording). -/
inductive DependsOn (ts : List (TaskStep α)) : String → String → Prop where
  | direct {i : Nat} {t : TaskStep α} {a : String} :
      ts[i]? = some t → a ∈ t.dependencies → DependsOn ts t.id a
  | step {b c a : String} : DependsOn ts b c → DependsOn ts c a → DependsOn ts b a

/-! ### Pointwise relations between task lists

Every mutation the scheduler performs is positional, so relations between
the old and the new task list are stated pointwise and carried as
`List.Forall₂`. -/

section Rel

variable {α : Type}

lemma forall₂_of_get {R : TaskStep α → TaskStep α → Prop}
    {l l' : List (TaskStep α)} (hlen : l'.length = l.length)
    (hpt : ∀ (i : Nat) (t t' : TaskStep α), l[i]? = some t → l'[i]? = some t' → R t t') :
    List.Forall₂ R l l' := by
  rw [List.forall₂_iff_get]
  refine ⟨hlen.symm, fun i h1 h2 => ?_⟩
  exact hpt i _ _ (by simp [List.getElem?_eq_getElem h1]) (by simp [List.getElem?_eq_getElem h2])

lemma forall₂_some_left {R : TaskStep α → TaskStep α → Prop}
    {l l' : List (TaskStep α)} (h : List.Forall₂ R l l') {i : Nat} {t : TaskStep α}
    (ht : l[i]? = some t) : ∃ t', l'[i]? = some t' ∧ R t t' := by
  have hi : i < l.length := by
    by_contra hle
    rw [List.getElem?_eq_none (by omega)] at ht
    exact Option.noConfusion ht
  have hi' : i < l'.length := by rw [← h.length_eq]; exact hi
  have hpt := (List.forall₂_iff_get.mp h).2 i hi hi'
  refine ⟨l'[i], by simp [List.getElem?_eq_getElem hi'], ?_⟩
  have : l[i] = t := by
    have := List.getElem?_eq_getElem hi
    rw [ht] at this
    exact (Option.some.inj this).symm
  simpa [List.get_eq_getElem, this] using hpt

lemma forall₂_some_right {R : TaskStep α → TaskStep α → Prop}
    {l l' : List (TaskStep α)} (h : List.Forall₂ R l l') {i : Nat} {t' : TaskStep α}
    (ht : l'[i]? = some t') : ∃ t, l[i]? = some t ∧ R t t' := by
  have hi' : i < l'.length := by
    by_contra hle
    rw [List.getElem?_eq_none (by omega)] at ht
    exact Option.noConfusion ht
  have hi : i < l.length := by rw [h.length_eq]; exact hi'
  have hpt := (List.forall₂_iff_get.mp h).2 i hi hi'
  refine ⟨l[i], by simp [List.getElem?_eq_getElem hi], ?_⟩
  have : l'[i] = t' := by
    have := List.getElem?_eq_getElem hi'
    rw [ht] at this
    exact (Option.some.inj this).symm
  simpa [List.get_eq_getElem, this] using hpt

lemma forall₂_none_left {R : TaskStep α → TaskStep α → Prop}
    {l l' : List (TaskStep α)} (h : List.Forall₂ R l l') {i : Nat}
    (ht : l[i]? = none) : l'[i]? = none := by
  rw [List.getElem?_eq_none_iff] at ht ⊢
  rw [← h.length_eq]; exact ht

lemma forall₂_task_trans {R : TaskStep α → TaskStep α → Prop}
    (htrans : ∀ a b c, R a b → R b c → R a c)
    {l m n : List (TaskStep α)}
    (h1 : List.Forall₂ R l m) (h2 : List.Forall₂ R m n) : List.Forall₂ R l n := by
  refine forall₂_of_get (by rw [← h2.length_eq, ← h1.length_eq]) ?_
  intro i t t'' ht ht''
  obtain ⟨t', hm, r1⟩ := forall₂_some_left h1 ht
  obtain ⟨tm, hm', r2⟩ := forall₂_some_right h2 ht''
  rw [hm] at hm'
  cases hm'
  exact htrans _ _ _ r1 r2

lemma forall₂_refl_task {R : TaskStep α → TaskStep α → Prop}
    (hrefl : ∀ t, R t t) (l : List (TaskStep α)) : List.Forall₂ R l l :=
  forall₂_of_get rfl (fun _ t t' ht ht' => by rw [ht] at ht'; cases ht'; exact hrefl t)

/-- Updating one position whose old entry is known relates the list to its
update pointwise. -/
lemma forall₂_set {R : TaskStep α → TaskStep α → Prop} (hrefl : ∀ t, R t t)
    {l : List (TaskStep α)} {i : Nat} {t u : TaskStep α}
    (ht : l[i]? = some t) (hR : R t u) : List.Forall₂ R l (l.set i u) := by
  have hi : i < l.length := by
    by_contra hle
    rw [List.getElem?_eq_none (by omega)] at ht
    exact Option.noConfusion ht
  refine forall₂_of_get (by simp) ?_
  intro j a a' ha ha'
  rw [List.getElem?_set] at ha'
  by_cases hij : i = j
  · subst hij
    rw [if_pos rfl, if_pos hi] at ha'
    cases ha'
    rw [ha] at ht
    cases ht
    exact hR
  · rw [if_neg hij] at ha'
    rw [ha] at ha'
    cases ha'
    exact hrefl a

/-- Count of a predicate can only drop along a pointwise relation that
reflects the predicate. -/
lemma countP_mono_forall₂ {R : TaskStep α → TaskStep α → Prop} {p : TaskStep α → Bool}
    (hp : ∀ t t', R t t' → p t' = true → p t = true)
    {l l' : List (TaskStep α)} (h : List.Forall₂ R l l') :
    l'.countP p ≤ l.countP p := by
  induction h with
  | nil => simp
  | @cons a b l₀ l₀' r _ ih =>
    simp only [List.countP_cons]
    cases hpb : p b with
    | false =>
      have h0 : (if false = true then 1 else 0) = 0 := by simp
      rw [h0]
      omega
    | true =>
      have hpa := hp _ _ r hpb
      have h1 : (if true = true then 1 else 0) = 1 := by simp
      have h2 : (if p a = true then 1 else 0) = 1 := by simp [hpa]
      rw [h1, h2]
      omega

/-- Replacing a position where the predicate held by one where it fails
decrements the count by exactly one. -/
lemma countP_set_flip {p : TaskStep α → Bool} :
    ∀ {l : List (TaskStep α)} {i : Nat} {t u : TaskStep α}, l[i]? = some t →
    p t = true → p u = false → (l.set i u).countP p + 1 = l.countP p := by
  intro l
  induction l with
  | nil => intro i t u h; simp at h
  | cons a l ih =>
    intro i t u h hpt hpu
    cases i with
    | zero =>
      simp only [List.getElem?_cons_zero, Option.some.injEq] at h
      subst h
      simp [List.set, List.countP_cons, hpt, hpu]
    | succ n =>
      simp only [List.getElem?_cons_succ] at h
      simp only [List.set, List.countP_cons]
      have := ih h hpt hpu
      omega

end Rel

/-! ### Facts about `lookupTask` and the results map -/

section Lookup

variable {α : Type}

lemma lookup_foldl_rel {R : TaskStep α → TaskStep α → Prop}
    (hid : ∀ t t', R t t' → t'.id = t.id) (d : String) :
    ∀ {l l' : List (TaskStep α)}, List.Forall₂ R l l' →
    ∀ {acc acc' : Option (TaskStep α)},
      ((acc = none ∧ acc' = none) ∨ ∃ u u', acc = some u ∧ acc' = some u' ∧ R u u') →
      ((l.foldl (fun a t => if t.id = d then some t else a) acc = none ∧
          l'.foldl (fun a t => if t.id = d then some t else a) acc' = none) ∨
        ∃ u u', l.foldl (fun a t => if t.id = d then some t else a) acc = some u ∧
          l'.foldl (fun a t => if t.id = d then some t else a) acc' = some u' ∧ R u u') := by
  intro l l' h
  induction h with
  | nil => intro acc acc' hacc; simpa using hacc
  | @cons a b l₀ l₀' r _ ih =>
    intro acc acc' hacc
    simp only [List.foldl_cons]
    apply ih
    by_cases hd : a.id = d
    · have hd' : b.id = d := by rw [hid _ _ r]; exact hd
      rw [if_pos hd, if_pos hd']
      exact Or.inr ⟨a, b, rfl, rfl, r⟩
    · have hd' : ¬ b.id = d := by rw [hid _ _ r]; exact hd
      rw [if_neg hd, if_neg hd']
      exact hacc

/-- `lookupTask` transported along a pointwise id-preserving relation. -/
lemma lookupTask_rel {R : TaskStep α → TaskStep α → Prop}
    (hid : ∀ t t', R t t' → t'.id = t.id)
    {l l' : List (TaskStep α)} (h : List.Forall₂ R l l') (d : String) :
    (lookupTask l d = none ∧ lookupTask l' d = none) ∨
      ∃ u u', lookupTask l d = some u ∧ lookupTask l' d = some u' ∧ R u u' :=
  lookup_foldl_rel hid d h (Or.inl ⟨rfl, rfl⟩)

lemma lookup_foldl_out (d : String) :
    ∀ (l : List (TaskStep α)) (acc : Option (TaskStep α)),
      l.foldl (fun a t => if t.id = d then some t else a) acc = acc ∨
      ∃ u, l.foldl (fun a t => if t.id = d then some t else a) acc = some u ∧
        u.id = d ∧ u ∈ l := by
  intro l
  induction l with
  | nil => intro acc; exact Or.inl rfl
  | cons a l ih =>
    intro acc
    simp only [List.foldl_cons]
    by_cases hd : a.id = d
    · rw [if_pos hd]
      rcases ih (some a) with h | ⟨u, hu, hid, hm⟩
      · exact Or.inr ⟨a, h, hd, List.mem_cons_self _ _⟩
      · exact Or.inr ⟨u, hu, hid, List.mem_cons_of_mem _ hm⟩
    · rw [if_neg hd]
      rcases ih acc with h | ⟨u, hu, hid, hm⟩
      · exact Or.inl h
      · exact Or.inr ⟨u, hu, hid, List.mem_cons_of_mem _ hm⟩

lemma lookupTask_some_mem {l : List (TaskStep α)} {d : String} {u : TaskStep α}
    (h : lookupTask l d = some u) : u.id = d ∧ u ∈ l := by
  rcases lookup_foldl_out d l none with h0 | ⟨w, hw, hid, hm⟩
  · rw [lookupTask, h0] at h
    exact Option.noConfusion h
  · rw [lookupTask, hw] at h
    cases h
    exact ⟨hid, hm⟩

lemma lookupTask_isSome_of_mem {l : List (TaskStep α)} {t : TaskStep α}
    (hm : t ∈ l) : ∃ u, lookupTask l t.id = some u := by
  rcases lookup_foldl_out t.id l none with h0 | ⟨w, hw, _, _⟩
  · exfalso
    obtain ⟨l₁, l₂, rfl⟩ := List.append_of_mem hm
    rw [List.foldl_append, List.foldl_cons, if_pos rfl] at h0
    rcases lookup_foldl_out t.id l₂ (some t) with h1 | ⟨u, hu, _, _⟩
    · rw [h1] at h0; exact Option.noConfusion h0
    · rw [hu] at h0; exact Option.noConfusion h0
  · exact ⟨w, hw⟩


lemma idsNodup_get_inj {l : List (TaskStep α)} (h : IdsNodup l) {i j : Nat}
    {t u : TaskStep α} (hi : l[i]? = some t) (hj : l[j]? = some u)
    (hid : t.id = u.id) : i = j := by
  have hilen : i < l.length := by
    by_contra hle
    rw [List.getElem?_eq_none (by omega)] at hi
    exact Option.noConfusion hi
  have hmi : (l.map (fun t => t.id))[i]? = some t.id := by
    rw [List.getElem?_map, hi]; rfl
  have hmj : (l.map (fun t => t.id))[j]? = some u.id := by
    rw [List.getElem?_map, hj]; rfl
  refine List.getElem?_inj (by simpa using hilen) h ?_
  rw [hmi, hmj, hid]

/-- Under unique ids, `lookupTask` returns exactly the entry with that id. -/
lemma lookupTask_eq_of_nodup {l : List (TaskStep α)} (h : IdsNodup l) {p : Nat}
    {t : TaskStep α} (hp : l[p]? = some t) : lookupTask l t.id = some t := by
  have hm : t ∈ l := List.mem_iff_getElem?.mpr ⟨p, hp⟩
  obtain ⟨u, hu⟩ := lookupTask_isSome_of_mem hm
  obtain ⟨hid, hmem⟩ := lookupTask_some_mem hu
  obtain ⟨q, hq⟩ := List.mem_iff_getElem?.mp hmem
  have : q = p := idsNodup_get_inj h hq hp hid
  subst this
  rw [hq] at hp
  cases hp
  exact hu

lemma mapGet_append_single (m : List (String × α)) (k : String) (v : α) :
    mapGet (m ++ [(k, v)]) k = some v := by
  rw [mapGet, List.foldl_append]
  simp

lemma mapGet_append_single_ne (m : List (String × α)) {k k' : String} (v : α)
    (h : k ≠ k') : mapGet (m ++ [(k, v)]) k' = mapGet m k' := by
  rw [mapGet, List.foldl_append, mapGet]
  simp [h]

lemma mapGet_foldl_frozen (k : String) :
    ∀ (m : List (String × α)) (acc : Option α), (∀ p ∈ m, p.1 ≠ k) →
      m.foldl (fun a p => if p.1 = k then some p.2 else a) acc = acc := by
  intro m
  induction m with
  | nil => intro acc _; rfl
  | cons p m ih =>
    intro acc hk
    simp only [List.foldl_cons]
    rw [if_neg (hk p (List.mem_cons_self _ _))]
    exact ih acc (fun q hq => hk q (List.mem_cons_of_mem _ hq))

lemma mapGet_none_of_fresh {m : List (String × α)} {k : String}
    (h : ∀ p ∈ m, p.1 ≠ k) : mapGet m k = none := by
  rw [mapGet, mapGet_foldl_frozen k m none h]

/-- Under distinct keys, `mapGet` agrees with membership. -/
lemma mapGet_of_mem_nodup {m : List (String × α)} (h : (m.map Prod.fst).Nodup)
    {k : String} {v : α} (hm : (k, v) ∈ m) : mapGet m k = some v := by
  induction m with
  | nil => cases hm
  | cons p m ih =>
    obtain ⟨pk, pv⟩ := p
    rw [List.map_cons, List.nodup_cons] at h
    rcases List.mem_cons.mp hm with heq | hm'
    · cases heq
      rw [mapGet, List.foldl_cons, if_pos rfl]
      refine mapGet_foldl_frozen _ m (some v) ?_
      intro q hq hqk
      have hq1 : q.1 ∈ List.map Prod.fst m := List.mem_map_of_mem Prod.fst hq
      rw [hqk] at hq1
      exact h.1 hq1
    · have hne : pk ≠ k := by
        intro hpk
        apply h.1
        have hk1 : (k, v).1 ∈ List.map Prod.fst m := List.mem_map_of_mem Prod.fst hm'
        rw [hpk]
        exact hk1
      rw [mapGet, List.foldl_cons, if_neg hne]
      exact ih h.2 hm'

lemma mapGet_foldl_out (k : String) :
    ∀ (m : List (String × α)) (acc : Option α) (v : α),
      m.foldl (fun acc p => if p.1 = k then some p.2 else acc) acc = some v →
      (k, v) ∈ m ∨ acc = some v := by
  intro m
  induction m with
  | nil => intro acc v h; exact Or.inr h
  | cons p m ih =>
    intro acc v h
    obtain ⟨pk, pv⟩ := p
    rw [List.foldl_cons] at h
    rcases ih _ v h with hmem | hacc
    · exact Or.inl (List.mem_cons_of_mem _ hmem)
    · by_cases hk : pk = k
      · rw [if_pos hk] at hacc
        cases hacc
        subst hk
        exact Or.inl (List.mem_cons_self _ _)
      · rw [if_neg hk] at hacc
        exact Or.inr hacc

/-- A `mapGet` hit comes from an entry of the map. -/
lemma mapGet_mem {m : List (String × α)} {k : String} {v : α}
    (h : mapGet m k = some v) : (k, v) ∈ m := by
  rcases mapGet_foldl_out k m none v h with hmem | hacc
  · exact hmem
  · exact Option.noConfusion hacc

end Lookup

/-! ### What each mutation does to a single entry -/

section Ops

variable {α : Type}



lemma flipStep_toStep {t t' : TaskStep α} (h : FlipStep t t') : Step t t' := by
  rcases h with rfl | ⟨g, hp, rfl⟩
  · exact Or.inl rfl
  · exact Or.inr ⟨rfl, rfl, rfl, rfl, rfl, Or.inl hp⟩

lemma runStep_toStep {t t' : TaskStep α} (h : RunStep t t') : Step t t' := by
  rcases h with rfl | ⟨hp, rfl⟩
  · exact Or.inl rfl
  · exact Or.inr ⟨rfl, rfl, rfl, rfl, rfl, Or.inl hp⟩

lemma Step.id_eq {t t' : TaskStep α} (h : Step t t') : t'.id = t.id := by
  rcases h with rfl | ⟨h1, _⟩
  · rfl
  · exact h1

lemma Step.deps_eq {t t' : TaskStep α} (h : Step t t') : t'.dependencies = t.dependencies := by
  rcases h with rfl | ⟨_, _, _, _, h5, _⟩
  · rfl
  · exact h5

lemma Step.eq_of_completed {t t' : TaskStep α} (h : Step t t')
    (hc : t.status = Status.completed) : t' = t := by
  rcases h with rfl | ⟨_, _, _, _, _, hp | hr⟩
  · rfl
  · rw [hp] at hc; cases hc
  · rw [hr] at hc; cases hc

lemma Step.eq_of_failed {t t' : TaskStep α} (h : Step t t')
    (hc : t.status = Status.failed) : t' = t := by
  rcases h with rfl | ⟨_, _, _, _, _, hp | hr⟩
  · rfl
  · rw [hp] at hc; cases hc
  · rw [hr] at hc; cases hc

lemma FlipStep.refl (t : TaskStep α) : FlipStep t t := Or.inl rfl

lemma flipStep_trans {a b c : TaskStep α} (h1 : FlipStep a b) (h2 : FlipStep b c) :
    FlipStep a c := by
  rcases h1 with rfl | ⟨g, hp, rfl⟩
  · exact h2
  · rcases h2 with rfl | ⟨g', hp', _⟩
    · exact Or.inr ⟨g, hp, rfl⟩
    · rw [show (failedTask a (depFailMsg g)).status = Status.failed from rfl] at hp'
      cases hp'

lemma step_trans {a b c : TaskStep α} (h1 : Step a b) (h2 : Step b c) : Step a c := by
  rcases h1 with rfl | ⟨i1, n1, d1, a1, p1, s1⟩
  · exact h2
  · rcases h2 with rfl | ⟨i2, n2, d2, a2, p2, _⟩
    · exact Or.inr ⟨i1, n1, d1, a1, p1, s1⟩
    · exact Or.inr ⟨i2.trans i1, n2.trans n1, d2.trans d1, a2.trans a1, p2.trans p1, s1⟩

lemma runStep_trans {a b c : TaskStep α} (h1 : RunStep a b) (h2 : RunStep b c) :
    RunStep a c := by
  rcases h1 with rfl | ⟨hp, rfl⟩
  · exact h2
  · rcases h2 with rfl | ⟨hp', _⟩
    · exact Or.inr ⟨hp, rfl⟩
    · cases hp'

lemma markRunning_nil (ts : List (TaskStep α)) : markRunning [] ts = ts := rfl

lemma markRunning_cons (i : Nat) (rest : List Nat) (ts : List (TaskStep α)) :
    markRunning (i :: rest) ts =
      markRunning rest
        (match ts[i]? with
         | some t => ts.set i { t with status := Status.running }
         | none => ts) := rfl

/-- The wave prefix relates the list to its update pointwise, provided the
marked positions are distinct and pending (as the ready set is). -/
lemma markRunning_forall₂ {idxs : List Nat} {ts : List (TaskStep α)}
    (hnd : idxs.Nodup)
    (hp : ∀ i ∈ idxs, ∀ t, ts[i]? = some t → t.status = Status.pending) :
    List.Forall₂ RunStep ts (markRunning idxs ts) := by
  induction idxs generalizing ts with
  | nil => exact forall₂_refl_task (fun t => Or.inl rfl) ts
  | cons i rest ih =>
    rw [List.nodup_cons] at hnd
    rw [markRunning_cons]
    cases hti : ts[i]? with
    | none =>
      simp only
      exact ih hnd.2 (fun j hj t htj => hp j (List.mem_cons_of_mem _ hj) t htj)
    | some t =>
      simp only
      have hpend := hp i (List.mem_cons_self _ _) t hti
      have h1 : List.Forall₂ RunStep ts (ts.set i { t with status := Status.running }) :=
        forall₂_set (fun u => Or.inl rfl) hti (Or.inr ⟨hpend, rfl⟩)
      refine forall₂_task_trans (R := RunStep) (fun _ _ _ h1 h2 => runStep_trans h1 h2) h1 (ih hnd.2 ?_)
      intro j hj u htj
      have hji : i ≠ j := fun h => hnd.1 (h ▸ hj)
      rw [List.getElem?_set, if_neg hji] at htj
      exact hp j (List.mem_cons_of_mem _ hj) u htj

lemma markDep_zero (f : String) (ts : List (TaskStep α)) :
    markDependentTasksAsFailed 0 f ts = ts := rfl

lemma markDep_succ (fuel : Nat) (f : String) (ts : List (TaskStep α)) :
    markDependentTasksAsFailed (fuel + 1) f ts =
      markDepGo fuel f (dependentIdxs f ts) ts := rfl

lemma markDepGo_nil (fuel : Nat) (f : String) (ts : List (TaskStep α)) :
    markDepGo fuel f [] ts = ts := rfl

lemma markDepGo_cons (fuel : Nat) (f : String) (i : Nat) (rest : List Nat)
    (ts : List (TaskStep α)) :
    markDepGo fuel f (i :: rest) ts =
      match ts[i]? with
      | some t =>
        if t.status = Status.pending then
          markDepGo fuel f rest
            (markDependentTasksAsFailed fuel t.id
              (ts.set i (failedTask t (depFailMsg f))))
        else markDepGo fuel f rest ts
      | none => markDepGo fuel f rest ts := rfl

/-- The failure propagator only flips pending entries to failed. -/
lemma markDep_go_flips (fuel : Nat) :
    (∀ (f : String) (ts : List (TaskStep α)),
        List.Forall₂ FlipStep ts (markDependentTasksAsFailed fuel f ts)) ∧
    (∀ (f : String) (idxs : List Nat) (ts : List (TaskStep α)),
        List.Forall₂ FlipStep ts (markDepGo fuel f idxs ts)) := by
  induction fuel with
  | zero =>
    have hgo : ∀ (f : String) (idxs : List Nat) (ts : List (TaskStep α)),
        List.Forall₂ FlipStep ts (markDepGo 0 f idxs ts) := by
      intro f idxs
      induction idxs with
      | nil => intro ts; rw [markDepGo_nil]; exact forall₂_refl_task FlipStep.refl ts
      | cons i rest ih =>
        intro ts
        rw [markDepGo_cons]
        cases hti : ts[i]? with
        | none => simp only; exact ih ts
        | some t =>
          simp only
          by_cases hp : t.status = Status.pending
          · rw [if_pos hp, markDep_zero]
            have h1 : List.Forall₂ FlipStep ts (ts.set i (failedTask t (depFailMsg f))) :=
              forall₂_set FlipStep.refl hti (Or.inr ⟨f, hp, rfl⟩)
            exact forall₂_task_trans (R := FlipStep)
              (fun _ _ _ a b => flipStep_trans a b) h1 (ih _)
          · rw [if_neg hp]; exact ih ts
    exact ⟨fun f ts => by rw [markDep_zero]; exact forall₂_refl_task FlipStep.refl ts, hgo⟩
  | succ fuel ih =>
    have hdep : ∀ (f : String) (ts : List (TaskStep α)),
        List.Forall₂ FlipStep ts (markDependentTasksAsFailed (fuel + 1) f ts) := by
      intro f ts
      rw [markDep_succ]
      exact ih.2 f _ ts
    refine ⟨hdep, ?_⟩
    intro f idxs
    induction idxs with
    | nil => intro ts; rw [markDepGo_nil]; exact forall₂_refl_task FlipStep.refl ts
    | cons i rest ihg =>
      intro ts
      rw [markDepGo_cons]
      cases hti : ts[i]? with
      | none => simp only; exact ihg ts
      | some t =>
        simp only
        by_cases hp : t.status = Status.pending
        · rw [if_pos hp]
          have h1 : List.Forall₂ FlipStep ts (ts.set i (failedTask t (depFailMsg f))) :=
            forall₂_set FlipStep.refl hti (Or.inr ⟨f, hp, rfl⟩)
          have h2 := hdep t.id (ts.set i (failedTask t (depFailMsg f)))
          exact forall₂_task_trans (R := FlipStep)
            (fun _ _ _ a b => flipStep_trans a b)
            (forall₂_task_trans (R := FlipStep)
              (fun _ _ _ a b => flipStep_trans a b) h1 h2) (ihg _)
        · rw [if_neg hp]; exact ihg ts

lemma markDep_forall₂ (fuel : Nat) (f : String) (ts : List (TaskStep α)) :
    List.Forall₂ FlipStep ts (markDependentTasksAsFailed fuel f ts) :=
  (markDep_go_flips fuel).1 f ts

lemma markDep_length (fuel : Nat) (f : String) (ts : List (TaskStep α)) :
    (markDependentTasksAsFailed fuel f ts).length = ts.length :=
  (markDep_forall₂ fuel f ts).length_eq.symm

/-- Positions outside the marked set are untouched by the wave prefix. -/
lemma markRunning_get_not_mem {idxs : List Nat} {ts : List (TaskStep α)} {j : Nat}
    (hj : ¬ j ∈ idxs) : (markRunning idxs ts)[j]? = ts[j]? := by
  induction idxs generalizing ts with
  | nil => rfl
  | cons i rest ih =>
    rw [markRunning_cons]
    have hji : i ≠ j := fun h => hj (h ▸ List.mem_cons_self _ _)
    have hjr : ¬ j ∈ rest := fun h => hj (List.mem_cons_of_mem _ h)
    cases hti : ts[i]? with
    | none => simp only; exact ih hjr
    | some t =>
      simp only
      rw [ih hjr, List.getElem?_set, if_neg hji]

/-- A marked position holds the running version of its old entry. -/
lemma markRunning_get_mem {idxs : List Nat} {ts : List (TaskStep α)} {i : Nat}
    (hnd : idxs.Nodup) (hi : i ∈ idxs) {t : TaskStep α} (hti : ts[i]? = some t) :
    (markRunning idxs ts)[i]? = some { t with status := Status.running } := by
  induction idxs generalizing ts with
  | nil => cases hi
  | cons i0 rest ih =>
    rw [List.nodup_cons] at hnd
    rw [markRunning_cons]
    rcases List.mem_cons.mp hi with rfl | hmem
    · rw [hti]
      simp only
      rw [markRunning_get_not_mem hnd.1]
      have hlen : i < ts.length := by
        by_contra hle
        rw [List.getElem?_eq_none (by omega)] at hti
        exact Option.noConfusion hti
      rw [List.getElem?_set, if_pos rfl, if_pos hlen]
    · cases hti0 : ts[i0]? with
      | none => simp only; exact ih hnd.2 hmem hti
      | some t0 =>
        simp only
        refine ih hnd.2 hmem ?_
        have hi0i : i0 ≠ i := fun h => hnd.1 (h ▸ hmem)
        rw [List.getElem?_set, if_neg hi0i]
        exact hti

/-- Complete case analysis of one settled callback: the three collaborator
calls either succeed or throw, giving seven reachable outcomes. -/
lemma handleTask_spec (ag : Agents α) (i : Nat) (st : St α) {t : TaskStep α}
    (ht : st.tasks[i]? = some t) :
    (∃ e e2, ag.notifyStart t = Except.error e ∧
       ag.notifyFailed (failedTask t e) e = Except.error e2 ∧
       handleTask ag i st = Except.error (e2, St.mk
         (st.tasks.set i (failedTask t e)) st.results
         ((st.log ++ [Ev.startNote t.id]) ++ [Ev.failNote t.id]))) ∨
    (∃ e u, ag.notifyStart t = Except.error e ∧
       ag.notifyFailed (failedTask t e) e = Except.ok u ∧
       handleTask ag i st = Except.ok (St.mk
         (markDependentTasksAsFailed (st.tasks.length + 1) t.id
           (st.tasks.set i (failedTask t e))) st.results
         ((st.log ++ [Ev.startNote t.id]) ++ [Ev.failNote t.id]))) ∨
    (∃ u e e2, ag.notifyStart t = Except.ok u ∧
       ag.exec t (depResults t st.results) = Except.error e ∧
       ag.notifyFailed (failedTask t e) e = Except.error e2 ∧
       handleTask ag i st = Except.error (e2, St.mk
         (st.tasks.set i (failedTask t e)) st.results
         (((st.log ++ [Ev.startNote t.id]) ++ [Ev.execCall t.id]) ++ [Ev.failNote t.id]))) ∨
    (∃ u e u2, ag.notifyStart t = Except.ok u ∧
       ag.exec t (depResults t st.results) = Except.error e ∧
       ag.notifyFailed (failedTask t e) e = Except.ok u2 ∧
       handleTask ag i st = Except.ok (St.mk
         (markDependentTasksAsFailed (st.tasks.length + 1) t.id
           (st.tasks.set i (failedTask t e))) st.results
         (((st.log ++ [Ev.startNote t.id]) ++ [Ev.execCall t.id]) ++ [Ev.failNote t.id]))) ∨
    (∃ u v u2, ag.notifyStart t = Except.ok u ∧
       ag.exec t (depResults t st.results) = Except.ok v ∧
       ag.notifyComplete (doneTask t v) = Except.ok u2 ∧
       handleTask ag i st = Except.ok (St.mk
         (st.tasks.set i (doneTask t v)) (mapSet st.results t.id v)
         (((st.log ++ [Ev.startNote t.id]) ++ [Ev.execCall t.id]) ++
           [Ev.completeNote t.id]))) ∨
    (∃ u v e e2, ag.notifyStart t = Except.ok u ∧
       ag.exec t (depResults t st.results) = Except.ok v ∧
       ag.notifyComplete (doneTask t v) = Except.error e ∧
       ag.notifyFailed (failedTask (doneTask t v) e) e = Except.error e2 ∧
       handleTask ag i st = Except.error (e2, St.mk
         (st.tasks.set i (failedTask (doneTask t v) e)) (mapSet st.results t.id v)
         ((((st.log ++ [Ev.startNote t.id]) ++ [Ev.execCall t.id]) ++
           [Ev.completeNote t.id]) ++ [Ev.failNote t.id]))) ∨
    (∃ u v e u2, ag.notifyStart t = Except.ok u ∧
       ag.exec t (depResults t st.results) = Except.ok v ∧
       ag.notifyComplete (doneTask t v) = Except.error e ∧
       ag.notifyFailed (failedTask (doneTask t v) e) e = Except.ok u2 ∧
       handleTask ag i st = Except.ok (St.mk
         (markDependentTasksAsFailed (st.tasks.length + 1) t.id
           (st.tasks.set i (failedTask (doneTask t v) e))) (mapSet st.results t.id v)
         ((((st.log ++ [Ev.startNote t.id]) ++ [Ev.execCall t.id]) ++
           [Ev.completeNote t.id]) ++ [Ev.failNote t.id]))) := by
  cases hS : ag.notifyStart t with
  | error e =>
    cases hF : ag.notifyFailed (failedTask t e) e with
    | error e2 =>
      exact Or.inl ⟨e, e2, rfl, hF, by
        simp [handleTask, failPath, ht, hS, hF]⟩
    | ok u =>
      exact Or.inr (Or.inl ⟨e, u, rfl, hF, by
        simp [handleTask, failPath, ht, hS, hF]⟩)
  | ok u =>
    cases hE : ag.exec t (depResults t st.results) with
    | error e =>
      cases hF : ag.notifyFailed (failedTask t e) e with
      | error e2 =>
        exact Or.inr (Or.inr (Or.inl ⟨u, e, e2, rfl, rfl, hF, by
          simp [handleTask, failPath, ht, hS, hE, hF]⟩))
      | ok u2 =>
        exact Or.inr (Or.inr (Or.inr (Or.inl ⟨u, e, u2, rfl, rfl, hF, by
          simp [handleTask, failPath, ht, hS, hE, hF]⟩)))
    | ok v =>
      cases hC : ag.notifyComplete (doneTask t v) with
      | ok u2 =>
        exact Or.inr (Or.inr (Or.inr (Or.inr (Or.inl ⟨u, v, u2, rfl, rfl, hC, by
          simp [handleTask, failPath, ht, hS, hE, hC]⟩))))
      | error e =>
        cases hF : ag.notifyFailed (failedTask (doneTask t v) e) e with
        | error e2 =>
          refine Or.inr (Or.inr (Or.inr (Or.inr (Or.inr (Or.inl
            ⟨u, v, e, e2, rfl, rfl, hC, hF, ?_⟩)))))
          simp [handleTask, failPath, ht, hS, hE, hC, hF, List.set_set]
          rfl
        | ok u2 =>
          refine Or.inr (Or.inr (Or.inr (Or.inr (Or.inr (Or.inr
            ⟨u, v, e, u2, rfl, rfl, hC, hF, ?_⟩)))))
          simp [handleTask, failPath, ht, hS, hE, hC, hF, List.set_set]
          exact ⟨rfl, rfl⟩

end Ops


/-! ### Characterizations of the two filters, and pending counts -/

section Charact

variable {α : Type}

lemma depsSatisfied_iff {ts : List (TaskStep α)} {t : TaskStep α} :
    depsSatisfied ts t = true ↔
      ∀ d ∈ t.dependencies, ∃ u, lookupTask ts d = some u ∧
        u.status = Status.completed := by
  rw [depsSatisfied, List.all_eq_true]
  constructor
  · intro h d hd
    have := h d hd
    cases hl : lookupTask ts d with
    | none => rw [hl] at this; cases this
    | some u =>
      rw [hl] at this
      exact ⟨u, rfl, by simpa using this⟩
  · intro h d hd
    obtain ⟨u, hu, hc⟩ := h d hd
    rw [hu]
    simpa using hc

lemma mem_readyIdxs {ts : List (TaskStep α)} {i : Nat} :
    i ∈ readyIdxs ts ↔ ∃ t, ts[i]? = some t ∧ t.status = Status.pending ∧
      ∀ d ∈ t.dependencies, ∃ u, lookupTask ts d = some u ∧
        u.status = Status.completed := by
  rw [readyIdxs, List.mem_filter, List.mem_range]
  constructor
  · rintro ⟨hlen, hp⟩
    cases hti : ts[i]? with
    | none => rw [hti] at hp; cases hp
    | some t =>
      rw [hti] at hp
      have hp' : (t.status == Status.pending && depsSatisfied ts t) = true := hp
      rw [Bool.and_eq_true, beq_iff_eq] at hp'
      exact ⟨t, rfl, hp'.1, depsSatisfied_iff.mp hp'.2⟩
  · rintro ⟨t, hti, hp, hd⟩
    have hlen : i < ts.length := by
      by_contra hle
      rw [List.getElem?_eq_none (by omega)] at hti
      exact Option.noConfusion hti
    refine ⟨hlen, ?_⟩
    rw [hti]
    show (t.status == Status.pending && depsSatisfied ts t) = true
    rw [Bool.and_eq_true, beq_iff_eq]
    exact ⟨hp, depsSatisfied_iff.mpr hd⟩

lemma readyIdxs_nodup (ts : List (TaskStep α)) : (readyIdxs ts).Nodup :=
  List.Nodup.filter _ (List.nodup_range _)

lemma mem_dependentIdxs {f : String} {ts : List (TaskStep α)} {i : Nat} :
    i ∈ dependentIdxs f ts ↔ ∃ t, ts[i]? = some t ∧ f ∈ t.dependencies := by
  rw [dependentIdxs, List.mem_filter, List.mem_range]
  constructor
  · rintro ⟨hlen, hp⟩
    cases hti : ts[i]? with
    | none => rw [hti] at hp; cases hp
    | some t =>
      rw [hti] at hp
      exact ⟨t, rfl, List.elem_iff.mp hp⟩
  · rintro ⟨t, hti, hp⟩
    have hlen : i < ts.length := by
      by_contra hle
      rw [List.getElem?_eq_none (by omega)] at hti
      exact Option.noConfusion hti
    refine ⟨hlen, ?_⟩
    rw [hti]
    exact List.elem_iff.mpr hp


lemma pendingCount_le_length (ts : List (TaskStep α)) :
    pendingCount ts ≤ ts.length :=
  List.countP_le_length _

lemma pendingCount_pos {ts : List (TaskStep α)} {i : Nat} {t : TaskStep α}
    (h : ts[i]? = some t) (hp : t.status = Status.pending) :
    0 < pendingCount ts := by
  have hm : t ∈ ts := List.mem_iff_getElem?.mpr ⟨i, h⟩
  rw [pendingCount, List.countP_pos_iff]
  exact ⟨t, hm, by simpa using hp⟩

lemma pendingCount_set_flip {ts : List (TaskStep α)} {i : Nat} {t u : TaskStep α}
    (h : ts[i]? = some t) (hp : t.status = Status.pending)
    (hu : u.status ≠ Status.pending) :
    pendingCount (ts.set i u) + 1 = pendingCount ts := by
  refine countP_set_flip h (by simpa using hp) ?_
  simpa using hu

lemma pendingCount_flips_le {l l' : List (TaskStep α)}
    (h : List.Forall₂ FlipStep l l') : pendingCount l' ≤ pendingCount l := by
  refine countP_mono_forall₂ ?_ h
  intro t t' hf hp
  rcases hf with rfl | ⟨g, _, rfl⟩
  · exact hp
  · simp [failedTask] at hp

lemma pendingCount_markDep_le (fuel : Nat) (f : String) (ts : List (TaskStep α)) :
    pendingCount (markDependentTasksAsFailed fuel f ts) ≤ pendingCount ts :=
  pendingCount_flips_le (markDep_forall₂ fuel f ts)

/-- If none of the worklist entries is pending, the propagator pass is a
no-op. -/
lemma markDepGo_noop (fuel : Nat) (f : String) :
    ∀ (idxs : List Nat) (ts : List (TaskStep α)),
      (∀ i ∈ idxs, ∀ t, ts[i]? = some t → t.status ≠ Status.pending) →
      markDepGo fuel f idxs ts = ts := by
  intro idxs
  induction idxs with
  | nil => intro ts _; rw [markDepGo_nil]
  | cons i rest ih =>
    intro ts h
    rw [markDepGo_cons]
    cases hti : ts[i]? with
    | none => simp only; exact ih ts (fun j hj u hu => h j (List.mem_cons_of_mem _ hj) u hu)
    | some t =>
      simp only
      rw [if_neg (h i (List.mem_cons_self _ _) t hti)]
      exact ih ts (fun j hj u hu => h j (List.mem_cons_of_mem _ hj) u hu)

end Charact

/-! ### The propagator clears every violation chargeable to the failed id -/

section Clears

variable {α : Type}

lemma getElem?_some_lt {β : Type} {l : List β} {i : Nat} {a : β}
    (h : l[i]? = some a) : i < l.length := by
  by_contra hle
  rw [List.getElem?_eq_none (by omega)] at h
  exact Option.noConfusion h

lemma flips_pending_back {l l' : List (TaskStep α)}
    (h : List.Forall₂ FlipStep l l') {i : Nat} {t' : TaskStep α}
    (ht : l'[i]? = some t') (hp : t'.status = Status.pending) : l[i]? = some t' := by
  obtain ⟨t, htl, hfs⟩ := forall₂_some_right h ht
  rcases hfs with rfl | ⟨g, _, rfl⟩
  · exact htl
  · simp [failedTask] at hp

lemma flips_failed_fwd {l l' : List (TaskStep α)}
    (h : List.Forall₂ FlipStep l l') {j : Nat} {u : TaskStep α}
    (hu : l[j]? = some u) (hf : u.status = Status.failed) : l'[j]? = some u := by
  obtain ⟨u', hu', hfs⟩ := forall₂_some_left h hu
  rcases hfs with rfl | ⟨g, hpend, rfl⟩
  · exact hu'
  · rw [hf] at hpend; cases hpend

/-- Generalized invariant-restoration for `markDependentTasksAsFailed`: with
fuel above the pending count, every pending-depends-on-failed violation in the
output is already allowed by the ambient allowance `V`; the violations on the
failed id `g` itself (resp. on the current worklist) are all cleared. -/
lemma markDep_clears (fuel : Nat) :
    (∀ (V : Nat → String → Prop) (g : String) (ts : List (TaskStep α)),
      pendingCount ts < fuel →
      (∀ (i j : Nat) (t u : TaskStep α), ts[i]? = some t → ts[j]? = some u → t.status = Status.pending →
        u.status = Status.failed → u.id ∈ t.dependencies → V i u.id ∨ u.id = g) →
      ∀ (i j : Nat) (t u : TaskStep α), (markDependentTasksAsFailed fuel g ts)[i]? = some t →
        (markDependentTasksAsFailed fuel g ts)[j]? = some u →
        t.status = Status.pending → u.status = Status.failed →
        u.id ∈ t.dependencies → V i u.id) ∧
    (∀ (V : Nat → String → Prop) (g : String) (idxs : List Nat) (ts : List (TaskStep α)),
      pendingCount ts ≤ fuel →
      (∀ (i j : Nat) (t u : TaskStep α), ts[i]? = some t → ts[j]? = some u → t.status = Status.pending →
        u.status = Status.failed → u.id ∈ t.dependencies →
        V i u.id ∨ (u.id = g ∧ i ∈ idxs)) →
      ∀ (i j : Nat) (t u : TaskStep α), (markDepGo fuel g idxs ts)[i]? = some t →
        (markDepGo fuel g idxs ts)[j]? = some u →
        t.status = Status.pending → u.status = Status.failed →
        u.id ∈ t.dependencies → V i u.id) := by
  induction fuel with
  | zero =>
    constructor
    · intro V g ts hfuel
      exact absurd hfuel (Nat.not_lt_zero _)
    · intro V g idxs ts hfuel _ i j t u hti _ hp _ _
      have hflips := (markDep_go_flips 0).2 g idxs ts
      have hback := flips_pending_back hflips hti hp
      exact absurd (pendingCount_pos hback hp) (by omega)
  | succ fuel ih =>
    have hkey : ∀ (V : Nat → String → Prop) (g : String) (ts : List (TaskStep α)),
        pendingCount ts < fuel + 1 →
        (∀ (i j : Nat) (t u : TaskStep α), ts[i]? = some t → ts[j]? = some u → t.status = Status.pending →
          u.status = Status.failed → u.id ∈ t.dependencies → V i u.id ∨ u.id = g) →
        ∀ (i j : Nat) (t u : TaskStep α), (markDependentTasksAsFailed (fuel + 1) g ts)[i]? = some t →
          (markDependentTasksAsFailed (fuel + 1) g ts)[j]? = some u →
          t.status = Status.pending → u.status = Status.failed →
          u.id ∈ t.dependencies → V i u.id := by
      intro V g ts hfuel hviol i j t u hti htj hp hf hdep
      rw [markDep_succ] at hti htj
      refine ih.2 V g (dependentIdxs g ts) ts (by omega) ?_ i j t u hti htj hp hf hdep
      intro p q tp uq hp1 hq1 hpp hqf hdep1
      rcases hviol p q tp uq hp1 hq1 hpp hqf hdep1 with hV | hg
      · exact Or.inl hV
      · exact Or.inr ⟨hg, mem_dependentIdxs.mpr ⟨tp, hp1, hg ▸ hdep1⟩⟩
    refine ⟨hkey, ?_⟩
    intro V g idxs
    induction idxs with
    | nil =>
      intro ts hfuel hviol i j t u hti htj hp hf hdep
      rw [markDepGo_nil] at hti htj
      rcases hviol i j t u hti htj hp hf hdep with hV | ⟨_, hmem⟩
      · exact hV
      · cases hmem
    | cons i0 rest ihg =>
      intro ts hfuel hviol i j t u hti htj hp hf hdep
      cases hti0 : ts[i0]? with
      | none =>
        have hgo : markDepGo (fuel + 1) g (i0 :: rest) ts =
            markDepGo (fuel + 1) g rest ts := by
          rw [markDepGo_cons, hti0]
        rw [hgo] at hti htj
        refine ihg ts hfuel ?_ i j t u hti htj hp hf hdep
        intro p q tp uq hp1 hq1 hpp hqf hdep1
        rcases hviol p q tp uq hp1 hq1 hpp hqf hdep1 with hV | ⟨hg, hmem⟩
        · exact Or.inl hV
        · rcases List.mem_cons.mp hmem with rfl | hmem'
          · rw [hp1] at hti0; exact Option.noConfusion hti0
          · exact Or.inr ⟨hg, hmem'⟩
      | some t0 =>
        have hlen0 : i0 < ts.length := getElem?_some_lt hti0
        by_cases hp0 : t0.status = Status.pending
        · have hgo : markDepGo (fuel + 1) g (i0 :: rest) ts =
              markDepGo (fuel + 1) g rest
                (markDependentTasksAsFailed (fuel + 1) t0.id
                  (ts.set i0 (failedTask t0 (depFailMsg g)))) := by
            rw [markDepGo_cons, hti0]
            simp only
            rw [if_pos hp0]
          rw [hgo] at hti htj
          have hcount : pendingCount (ts.set i0 (failedTask t0 (depFailMsg g))) + 1 =
              pendingCount ts :=
            pendingCount_set_flip hti0 hp0 (by simp [failedTask])
          have hviolmid : ∀ (p q : Nat) (tp uq : TaskStep α),
              (ts.set i0 (failedTask t0 (depFailMsg g)))[p]? = some tp →
              (ts.set i0 (failedTask t0 (depFailMsg g)))[q]? = some uq →
              tp.status = Status.pending → uq.status = Status.failed →
              uq.id ∈ tp.dependencies →
              (fun p x => V p x ∨ (x = g ∧ p ∈ rest)) p uq.id ∨ uq.id = t0.id := by
            intro p q tp uq hp1 hq1 hpp hqf hdep1
            have hpi0 : ¬ i0 = p := by
              intro h
              subst h
              rw [List.getElem?_set, if_pos rfl, if_pos hlen0] at hp1
              cases hp1
              simp [failedTask] at hpp
            rw [List.getElem?_set, if_neg hpi0] at hp1
            by_cases hqi0 : i0 = q
            · subst hqi0
              rw [List.getElem?_set, if_pos rfl, if_pos hlen0] at hq1
              cases hq1
              exact Or.inr rfl
            · rw [List.getElem?_set, if_neg hqi0] at hq1
              rcases hviol p q tp uq hp1 hq1 hpp hqf hdep1 with hV | ⟨hg, hmem⟩
              · exact Or.inl (Or.inl hV)
              · rcases List.mem_cons.mp hmem with rfl | hmem'
                · exact absurd rfl hpi0
                · exact Or.inl (Or.inr ⟨hg, hmem'⟩)
          have hmid2 := hkey (fun p x => V p x ∨ (x = g ∧ p ∈ rest)) t0.id
            (ts.set i0 (failedTask t0 (depFailMsg g))) (by omega) hviolmid
          refine ihg (markDependentTasksAsFailed (fuel + 1) t0.id
              (ts.set i0 (failedTask t0 (depFailMsg g)))) ?_ ?_ i j t u hti htj hp hf hdep
          · have := pendingCount_markDep_le (fuel + 1) t0.id
              (ts.set i0 (failedTask t0 (depFailMsg g)))
            omega
          · intro p q tp uq hp1 hq1 hpp hqf hdep1
            exact hmid2 p q tp uq hp1 hq1 hpp hqf hdep1
        · have hgo : markDepGo (fuel + 1) g (i0 :: rest) ts =
              markDepGo (fuel + 1) g rest ts := by
            rw [markDepGo_cons, hti0]
            simp only
            rw [if_neg hp0]
          rw [hgo] at hti htj
          refine ihg ts hfuel ?_ i j t u hti htj hp hf hdep
          intro p q tp uq hp1 hq1 hpp hqf hdep1
          rcases hviol p q tp uq hp1 hq1 hpp hqf hdep1 with hV | ⟨hg, hmem⟩
          · exact Or.inl hV
          · rcases List.mem_cons.mp hmem with rfl | hmem'
            · rw [hp1] at hti0
              cases hti0
              exact absurd hpp hp0
            · exact Or.inr ⟨hg, hmem'⟩

end Clears

/-! ### Run invariants -/

section Inv

variable {α : Type}







lemma completedAt_mono {l l' : List (TaskStep α)} (h : List.Forall₂ Step l l')
    {d : String} (hc : CompletedAt l d) : CompletedAt l' d := by
  obtain ⟨u, hu, hc'⟩ := hc
  rcases lookupTask_rel (fun t t' hs => hs.id_eq) h d with ⟨hn, _⟩ | ⟨w, w', hw, hw', hs⟩
  · rw [hu] at hn; exact Option.noConfusion hn
  · rw [hu] at hw
    cases hw
    refine ⟨w', hw', ?_⟩
    rw [hs.eq_of_completed hc']
    exact hc'

lemma depsCompleted_mono {l l' : List (TaskStep α)} (h : List.Forall₂ Step l l')
    {t t' : TaskStep α} (hdeps : t'.dependencies = t.dependencies)
    (hd : DepsCompleted l t) : DepsCompleted l' t' := by
  intro d hdmem
  exact completedAt_mono h (hd d (hdeps ▸ hdmem))

lemma map_id_eq_of_step {l l' : List (TaskStep α)} (h : List.Forall₂ Step l l') :
    l'.map (fun t => t.id) = l.map (fun t => t.id) := by
  induction h with
  | nil => rfl
  | @cons a b l₀ l₀' r _ ih => simp [ih, r.id_eq]

lemma idsNodup_mono {l l' : List (TaskStep α)} (h : List.Forall₂ Step l l')
    (hn : IdsNodup l) : IdsNodup l' := by
  rw [IdsNodup, map_id_eq_of_step h]
  exact hn

/-- Restoring `NPF` through the catch block: setting entry `i` to a failed
task with the same id and then running the propagator on that id yields a
violation-free state. -/
lemma NPF_markDep_set {ts : List (TaskStep α)} (hnpf : NPF ts) {i : Nat}
    {t : TaskStep α} (ht : ts[i]? = some t) {w : TaskStep α}
    (hwid : w.id = t.id) (hwst : w.status = Status.failed) :
    NPF (markDependentTasksAsFailed (ts.length + 1) t.id (ts.set i w)) := by
  have hlen : i < ts.length := getElem?_some_lt ht
  intro p q tp uq hp1 hq1 hpp hqf hdep
  refine (markDep_clears (ts.length + 1)).1 (fun _ _ => False) t.id (ts.set i w)
    ?_ ?_ p q tp uq ?_ ?_ hpp hqf hdep
  · have h1 := pendingCount_le_length (ts.set i w)
    rw [List.length_set] at h1
    omega
  · intro p' q' tp' uq' hp' hq' hpp' hqf' hdep'
    have hpi : ¬ i = p' := by
      intro h
      subst h
      rw [List.getElem?_set, if_pos rfl, if_pos hlen] at hp'
      cases hp'
      rw [hwst] at hpp'
      exact Status.noConfusion hpp'
    rw [List.getElem?_set, if_neg hpi] at hp'
    by_cases hqi : i = q'
    · subst hqi
      rw [List.getElem?_set, if_pos rfl, if_pos hlen] at hq'
      cases hq'
      exact Or.inr hwid
    · rw [List.getElem?_set, if_neg hqi] at hq'
      exact absurd hdep' (hnpf p' q' tp' uq' hp' hq' hpp' hqf')
  · have hl2 : (ts.set i w).length + 1 = ts.length + 1 := by rw [List.length_set]
    rw [← hl2] at hp1 ⊢
    exact hp1
  · have hl2 : (ts.set i w).length + 1 = ts.length + 1 := by rw [List.length_set]
    rw [← hl2] at hq1 ⊢
    exact hq1





lemma flips_nonpending_fwd {l l' : List (TaskStep α)}
    (h : List.Forall₂ FlipStep l l') {j : Nat} {u : TaskStep α}
    (hu : l[j]? = some u) (hnp : u.status ≠ Status.pending) : l'[j]? = some u := by
  obtain ⟨u', hu', hfs⟩ := forall₂_some_left h hu
  rcases hfs with rfl | ⟨g, hpend, rfl⟩
  · exact hu'
  · exact absurd hpend hnp

lemma flips_notfailed_back {l l' : List (TaskStep α)}
    (h : List.Forall₂ FlipStep l l') {j : Nat} {u' : TaskStep α}
    (hu : l'[j]? = some u') (hnf : u'.status ≠ Status.failed) : l[j]? = some u' := by
  obtain ⟨u, hul, hfs⟩ := forall₂_some_right h hu
  rcases hfs with rfl | ⟨g, hpend, rfl⟩
  · exact hul
  · exact absurd rfl hnf

/-- Net effect of the catch block on the invariants: entry `i` (running)
becomes the failed task `w`, the propagator flips dependents, everything else
is preserved. -/
lemma failedCore {ts T' : List (TaskStep α)} {i : Nat} {t w : TaskStep α}
    (ht : ts[i]? = some t) (htr : t.status = Status.running)
    (hwid : w.id = t.id) (hwname : w.name = t.name) (hwdescr : w.descr = t.descr)
    (hwagent : w.agentType = t.agentType) (hwdeps : w.dependencies = t.dependencies)
    (hwst : w.status = Status.failed)
    (hT : T' = markDependentTasksAsFailed (ts.length + 1) t.id (ts.set i w))
    (hnodup : IdsNodup ts) (hnpf : NPF ts) (hcok : CompletedOK ts)
    (hrok : RunningOK ts) :
    List.Forall₂ Step ts T' ∧ T'[i]? = some w ∧
    (∀ (j : Nat) (u : TaskStep α), ¬ j = i → ts[j]? = some u →
      u.status = Status.running → T'[j]? = some u) ∧
    IdsNodup T' ∧ NPF T' ∧ CompletedOK T' ∧ RunningOK T' := by
  have hlen : i < ts.length := getElem?_some_lt ht
  have hset : List.Forall₂ Step ts (ts.set i w) :=
    forall₂_set (fun u => Or.inl rfl) ht
      (Or.inr ⟨hwid, hwname, hwdescr, hwagent, hwdeps, Or.inr htr⟩)
  have hflips : List.Forall₂ FlipStep (ts.set i w) T' := by
    rw [hT]
    exact markDep_forall₂ _ _ _
  have hstep2 : List.Forall₂ Step (ts.set i w) T' :=
    hflips.imp (fun _ _ hr => flipStep_toStep hr)
  have hstep : List.Forall₂ Step ts T' :=
    forall₂_task_trans (R := Step) (fun _ _ _ a b => step_trans a b) hset hstep2
  have hseti : (ts.set i w)[i]? = some w := by
    rw [List.getElem?_set, if_pos rfl, if_pos hlen]
  have hentry : T'[i]? = some w :=
    flips_nonpending_fwd hflips hseti (by rw [hwst]; exact fun h => Status.noConfusion h)
  refine ⟨hstep, hentry, ?_, idsNodup_mono hstep hnodup, ?_, ?_, ?_⟩
  · intro j u hji hju hur
    have hsetj : (ts.set i w)[j]? = some u := by
      rw [List.getElem?_set, if_neg (fun h => hji h.symm)]
      exact hju
    exact flips_nonpending_fwd hflips hsetj (by rw [hur]; exact fun h => Status.noConfusion h)
  · rw [hT]
    exact NPF_markDep_set hnpf ht hwid hwst
  · intro p tp hp hcomp
    have hback1 : (ts.set i w)[p]? = some tp :=
      flips_notfailed_back hflips hp (by rw [hcomp]; exact fun h => Status.noConfusion h)
    have hpi : ¬ i = p := by
      intro h
      subst h
      rw [hseti] at hback1
      cases hback1
      rw [hwst] at hcomp
      exact Status.noConfusion hcomp
    rw [List.getElem?_set, if_neg hpi] at hback1
    exact depsCompleted_mono hstep rfl (hcok p tp hback1 hcomp)
  · intro p tp hp hrun
    have hback1 : (ts.set i w)[p]? = some tp :=
      flips_notfailed_back hflips hp (by rw [hrun]; exact fun h => Status.noConfusion h)
    have hpi : ¬ i = p := by
      intro h
      subst h
      rw [hseti] at hback1
      cases hback1
      rw [hwst] at hrun
      exact Status.noConfusion hrun
    rw [List.getElem?_set, if_neg hpi] at hback1
    exact depsCompleted_mono hstep rfl (hrok p tp hback1 hrun)

/-- Net effect of the success branch on the invariants: entry `i` (running)
becomes the completed task, everything else is untouched. -/
lemma doneCore {ts : List (TaskStep α)} {i : Nat} {t : TaskStep α} (v : α)
    (ht : ts[i]? = some t) (htr : t.status = Status.running)
    (hnodup : IdsNodup ts) (hnpf : NPF ts) (hcok : CompletedOK ts)
    (hrok : RunningOK ts) :
    List.Forall₂ Step ts (ts.set i (doneTask t v)) ∧
    (ts.set i (doneTask t v))[i]? = some (doneTask t v) ∧
    (∀ (j : Nat) (u : TaskStep α), ¬ j = i → ts[j]? = some u →
      u.status = Status.running → (ts.set i (doneTask t v))[j]? = some u) ∧
    IdsNodup (ts.set i (doneTask t v)) ∧ NPF (ts.set i (doneTask t v)) ∧
    CompletedOK (ts.set i (doneTask t v)) ∧ RunningOK (ts.set i (doneTask t v)) := by
  have hlen : i < ts.length := getElem?_some_lt ht
  have hstep : List.Forall₂ Step ts (ts.set i (doneTask t v)) :=
    forall₂_set (fun u => Or.inl rfl) ht
      (Or.inr ⟨rfl, rfl, rfl, rfl, rfl, Or.inr htr⟩)
  have hseti : (ts.set i (doneTask t v))[i]? = some (doneTask t v) := by
    rw [List.getElem?_set, if_pos rfl, if_pos hlen]
  refine ⟨hstep, hseti, ?_, idsNodup_mono hstep hnodup, ?_, ?_, ?_⟩
  · intro j u hji hju _
    rw [List.getElem?_set, if_neg (fun h => hji h.symm)]
    exact hju
  · intro p q tp uq hp hq hpp hqf
    have hpi : ¬ i = p := by
      intro h
      subst h
      rw [hseti] at hp
      cases hp
      exact Status.noConfusion hpp
    have hqi : ¬ i = q := by
      intro h
      subst h
      rw [hseti] at hq
      cases hq
      exact Status.noConfusion hqf
    rw [List.getElem?_set, if_neg hpi] at hp
    rw [List.getElem?_set, if_neg hqi] at hq
    exact hnpf p q tp uq hp hq hpp hqf
  · intro p tp hp hcomp
    by_cases hpi : i = p
    · subst hpi
      rw [hseti] at hp
      cases hp
      exact depsCompleted_mono hstep rfl (hrok i t ht htr)
    · rw [List.getElem?_set, if_neg hpi] at hp
      exact depsCompleted_mono hstep rfl (hcok p tp hp hcomp)
  · intro p tp hp hrun
    by_cases hpi : i = p
    · subst hpi
      rw [hseti] at hp
      cases hp
      exact Status.noConfusion hrun
    · rw [List.getElem?_set, if_neg hpi] at hp
      exact depsCompleted_mono hstep rfl (hrok p tp hp hrun)

/-- Field discipline through the catch block (the failed entry keeps
`result = none` because a running task has no result yet). -/
lemma fieldsFailedCore {ts T' : List (TaskStep α)} {i : Nat} {t w : TaskStep α}
    (ht : ts[i]? = some t) (_htr : t.status = Status.running)
    (hwst : w.status = Status.failed) (hwres : w.result = none)
    (hwerr : ∃ e, w.error = some e)
    (hT : T' = markDependentTasksAsFailed (ts.length + 1) t.id (ts.set i w))
    (hf : FieldsOK ts) : FieldsOK T' := by
  have hlen : i < ts.length := getElem?_some_lt ht
  have hflips : List.Forall₂ FlipStep (ts.set i w) T' := by
    rw [hT]
    exact markDep_forall₂ _ _ _
  intro p tp' hp'
  obtain ⟨tp0, hp0, hfs⟩ := forall₂_some_right hflips hp'
  rcases hfs with rfl | ⟨g, hpend, rfl⟩
  · by_cases hpi : i = p
    · subst hpi
      rw [List.getElem?_set, if_pos rfl, if_pos hlen] at hp0
      cases hp0
      refine ⟨?_, ?_, ?_⟩
      · intro hc
        rw [hwst] at hc
        rcases hc with hc | hc <;> exact Status.noConfusion hc
      · intro hc
        rw [hwst] at hc
        exact Status.noConfusion hc
      · intro _
        exact ⟨hwres, hwerr⟩
    · rw [List.getElem?_set, if_neg hpi] at hp0
      exact hf p tp' hp0
  · have hpi : ¬ i = p := by
      intro h
      subst h
      rw [List.getElem?_set, if_pos rfl, if_pos hlen] at hp0
      cases hp0
      rw [hwst] at hpend
      exact Status.noConfusion hpend
    rw [List.getElem?_set, if_neg hpi] at hp0
    have hold := (hf p tp0 hp0).1 (Or.inl hpend)
    refine ⟨?_, ?_, ?_⟩
    · intro hc
      rcases hc with hc | hc <;> simp [failedTask] at hc
    · intro hc
      simp [failedTask] at hc
    · intro _
      exact ⟨by simp [failedTask, hold.1], ⟨depFailMsg g, by simp [failedTask]⟩⟩

/-- Field discipline through the success branch. -/
lemma fieldsDoneCore {ts : List (TaskStep α)} {i : Nat} {t : TaskStep α} (v : α)
    (ht : ts[i]? = some t) (htr : t.status = Status.running)
    (hf : FieldsOK ts) : FieldsOK (ts.set i (doneTask t v)) := by
  have hlen : i < ts.length := getElem?_some_lt ht
  intro p tp' hp'
  by_cases hpi : i = p
  · subst hpi
    rw [List.getElem?_set, if_pos rfl, if_pos hlen] at hp'
    cases hp'
    have hold := (hf i t ht).1 (Or.inr htr)
    refine ⟨?_, ?_, ?_⟩
    · intro hc
      rcases hc with hc | hc <;> simp [doneTask] at hc
    · intro _
      exact ⟨⟨v, by simp [doneTask]⟩, by simp [doneTask, hold.2]⟩
    · intro hc
      simp [doneTask] at hc
  · rw [List.getElem?_set, if_neg hpi] at hp'
    exact hf p tp' hp'

/-- The results map invariant through the catch block: the map is unchanged
and so is the set of completed tasks. -/
lemma resultsFailedCore {ts T' : List (TaskStep α)} {rs : List (String × α)}
    {lg lg' : List Ev} {i : Nat} {t w : TaskStep α}
    (ht : ts[i]? = some t) (htr : t.status = Status.running)
    (hwst : w.status = Status.failed)
    (hT : T' = markDependentTasksAsFailed (ts.length + 1) t.id (ts.set i w))
    (hr : ResultsOK (St.mk ts rs lg)) : ResultsOK (St.mk T' rs lg') := by
  have hlen : i < ts.length := getElem?_some_lt ht
  have hflips : List.Forall₂ FlipStep (ts.set i w) T' := by
    rw [hT]
    exact markDep_forall₂ _ _ _
  refine ⟨hr.1, ?_⟩
  intro k v
  rw [hr.2 k v]
  constructor
  · rintro ⟨p, tp, hp, hid, hcomp, hres⟩
    have hpi : ¬ i = p := by
      intro h
      subst h
      rw [ht] at hp
      cases hp
      rw [htr] at hcomp
      exact Status.noConfusion hcomp
    have hsetp : (ts.set i w)[p]? = some tp := by
      rw [List.getElem?_set, if_neg hpi]
      exact hp
    exact ⟨p, tp, flips_nonpending_fwd hflips hsetp
      (by rw [hcomp]; exact fun h => Status.noConfusion h), hid, hcomp, hres⟩
  · rintro ⟨p, tp', hp', hid, hcomp, hres⟩
    have hsetp : (ts.set i w)[p]? = some tp' :=
      flips_notfailed_back hflips hp' (by rw [hcomp]; exact fun h => Status.noConfusion h)
    have hpi : ¬ i = p := by
      intro h
      subst h
      rw [List.getElem?_set, if_pos rfl, if_pos hlen] at hsetp
      cases hsetp
      rw [hwst] at hcomp
      exact Status.noConfusion hcomp
    rw [List.getElem?_set, if_neg hpi] at hsetp
    exact ⟨p, tp', hsetp, hid, hcomp, hres⟩

/-- The completing task's id is not yet a key of the results map. -/
lemma resultsFresh {ts : List (TaskStep α)} {rs : List (String × α)}
    {lg : List Ev} {i : Nat} {t : TaskStep α}
    (ht : ts[i]? = some t) (htr : t.status = Status.running)
    (hnodup : IdsNodup ts)
    (hr : ResultsOK (St.mk ts rs lg)) : ∀ p ∈ rs, p.1 ≠ t.id := by
  rintro ⟨pk, pv⟩ hp hk
  simp only at hk
  subst hk
  obtain ⟨q, tq, hq, hqid, hqcomp, _⟩ := (hr.2 t.id pv).mp hp
  have : q = i := idsNodup_get_inj hnodup hq ht hqid
  subst this
  rw [hq] at ht
  cases ht
  rw [htr] at hqcomp
  exact Status.noConfusion hqcomp

/-- On a fresh key, `Map.set` appends. -/
lemma mapSet_fresh {rs : List (String × α)} {k : String} (v : α)
    (hfresh : ∀ p ∈ rs, p.1 ≠ k) : mapSet rs k v = rs ++ [(k, v)] := by
  have hany : rs.any (fun p => p.1 = k) = false := by
    rw [List.any_eq_false]
    intro p hp
    simpa using hfresh p hp
  rw [mapSet, hany]
  simp

/-- The results map invariant through the success branch: the completing
task's id is fresh, so `Map.set` appends exactly its entry. -/
lemma resultsDoneCore {ts : List (TaskStep α)} {rs : List (String × α)}
    {lg lg' : List Ev} {i : Nat} {t : TaskStep α} (v : α)
    (ht : ts[i]? = some t) (htr : t.status = Status.running)
    (hnodup : IdsNodup ts)
    (hr : ResultsOK (St.mk ts rs lg)) :
    ResultsOK (St.mk (ts.set i (doneTask t v)) (rs ++ [(t.id, v)]) lg') := by
  have hlen : i < ts.length := getElem?_some_lt ht
  have hfresh : ∀ p ∈ rs, p.1 ≠ t.id := resultsFresh ht htr hnodup hr
  constructor
  · rw [List.map_append]
    rw [List.nodup_append]
    refine ⟨hr.1, List.nodup_singleton _, ?_⟩
    intro a ha hb
    simp only [List.map_cons, List.map_nil, List.mem_singleton] at hb
    subst hb
    obtain ⟨p, hp, hpk⟩ := List.mem_map.mp ha
    exact hfresh p hp hpk
  · intro k v'
    rw [List.mem_append, List.mem_singleton]
    constructor
    · rintro (hold | heq)
      · obtain ⟨p, tp, hp, hid, hcomp, hres⟩ := (hr.2 k v').mp hold
        have hpi : ¬ i = p := by
          intro h
          subst h
          rw [ht] at hp
          cases hp
          rw [htr] at hcomp
          exact Status.noConfusion hcomp
        refine ⟨p, tp, ?_, hid, hcomp, hres⟩
        rw [List.getElem?_set, if_neg hpi]
        exact hp
      · cases heq
        refine ⟨i, doneTask t v, ?_, rfl, rfl, rfl⟩
        rw [List.getElem?_set, if_pos rfl, if_pos hlen]
    · rintro ⟨p, tp', hp', hid, hcomp, hres⟩
      by_cases hpi : i = p
      · subst hpi
        rw [List.getElem?_set, if_pos rfl, if_pos hlen] at hp'
        cases hp'
        right
        have h1 : k = t.id := hid.symm
        have h2 : some v = some v' := by
          rw [show (doneTask t v).result = some v from rfl] at hres
          exact hres
        cases h2
        rw [h1]
      · rw [List.getElem?_set, if_neg hpi] at hp'
        exact Or.inl ((hr.2 k v').mpr ⟨p, tp', hp', hid, hcomp, hres⟩)

lemma logOK_step {ts T' : List (TaskStep α)} (hstep : List.Forall₂ Step ts T')
    {s : String}
    (h : ∃ (p : Nat) (tp : TaskStep α), ts[p]? = some tp ∧ tp.id = s ∧
      DepsCompleted ts tp) :
    ∃ (p : Nat) (tp' : TaskStep α), T'[p]? = some tp' ∧ tp'.id = s ∧
      DepsCompleted T' tp' := by
  obtain ⟨p, tp, hp, hid, hdeps⟩ := h
  obtain ⟨tp', hp', hrel⟩ := forall₂_some_left hstep hp
  exact ⟨p, tp', hp', by rw [hrel.id_eq, hid],
    depsCompleted_mono hstep hrel.deps_eq hdeps⟩

/-- One settled callback preserves the invariant bundle; the handled entry
reaches a terminal status, the other running entries are untouched, and the
log only grows. -/
lemma handleTask_preserves {ag : Agents α} {i : Nat} {st st' : St α}
    {t : TaskStep α}
    (ht : st.tasks[i]? = some t) (htr : t.status = Status.running)
    (hok : handleTask ag i st = Except.ok st') (inv : WInv ag st) :
    WInv ag st' ∧
    List.Forall₂ Step st.tasks st'.tasks ∧
    (∀ (j : Nat) (u : TaskStep α), ¬ j = i → st.tasks[j]? = some u →
      u.status = Status.running → st'.tasks[j]? = some u) ∧
    (∃ w, st'.tasks[i]? = some w ∧ w.id = t.id ∧
      (w.status = Status.completed ∨ w.status = Status.failed)) ∧
    (∀ ev ∈ st.log, ev ∈ st'.log) := by
  rcases handleTask_spec ag i st ht with
    ⟨e, e2, hS, hF, heq⟩ | ⟨e, u, hS, hF, heq⟩ | ⟨u, e, e2, hS, hE, hF, heq⟩ |
    ⟨u, e, u2, hS, hE, hF, heq⟩ | ⟨u, v, u2, hS, hE, hC, heq⟩ |
    ⟨u, v, e, e2, hS, hE, hC, hF, heq⟩ | ⟨u, v, e, u2, hS, hE, hC, hF, heq⟩
  · rw [heq] at hok
    exact Except.noConfusion hok
  · -- start notification threw; catch path, failure notification succeeded
    cases Except.ok.inj (heq.symm.trans hok)
    obtain ⟨hstep, hentry, hrunpres, hnodup2, hnpf2, hcok2, hrok2⟩ :=
      failedCore (w := failedTask t e) ht htr rfl rfl rfl rfl rfl rfl rfl
        inv.nodup inv.npf inv.completedOK inv.runningOK
    refine ⟨⟨hnodup2, hnpf2, hcok2, hrok2, ?_, ?_, ?_⟩, hstep, hrunpres,
      ⟨failedTask t e, hentry, rfl, Or.inr rfl⟩, ?_⟩
    · intro s hs
      simp only [List.mem_append, List.mem_singleton] at hs
      rcases hs with (hs | hs) | hs
      · exact logOK_step hstep (inv.logOK s hs)
      · exact Ev.noConfusion hs
      · exact Ev.noConfusion hs
    · intro hcomp
      have hfld := inv.fieldsOK hcomp
      have hres0 := (hfld i t ht).1 (Or.inr htr)
      refine fieldsFailedCore ht htr rfl ?_ ⟨e, rfl⟩ rfl hfld
      show (failedTask t e).result = none
      simp [failedTask, hres0.1]
    · intro hcomp
      exact resultsFailedCore ht htr rfl rfl (inv.resultsOK hcomp)
    · intro ev hev
      simp only [List.mem_append, List.mem_singleton]
      exact Or.inl (Or.inl hev)
  · rw [heq] at hok
    exact Except.noConfusion hok
  · -- executor threw; catch path, failure notification succeeded
    cases Except.ok.inj (heq.symm.trans hok)
    obtain ⟨hstep, hentry, hrunpres, hnodup2, hnpf2, hcok2, hrok2⟩ :=
      failedCore (w := failedTask t e) ht htr rfl rfl rfl rfl rfl rfl rfl
        inv.nodup inv.npf inv.completedOK inv.runningOK
    refine ⟨⟨hnodup2, hnpf2, hcok2, hrok2, ?_, ?_, ?_⟩, hstep, hrunpres,
      ⟨failedTask t e, hentry, rfl, Or.inr rfl⟩, ?_⟩
    · intro s hs
      simp only [List.mem_append, List.mem_singleton] at hs
      rcases hs with ((hs | hs) | hs) | hs
      · exact logOK_step hstep (inv.logOK s hs)
      · exact Ev.noConfusion hs
      · have hsid : s = t.id := by injection hs
        subst hsid
        exact logOK_step hstep ⟨i, t, ht, rfl, inv.runningOK i t ht htr⟩
      · exact Ev.noConfusion hs
    · intro hcomp
      have hfld := inv.fieldsOK hcomp
      have hres0 := (hfld i t ht).1 (Or.inr htr)
      refine fieldsFailedCore ht htr rfl ?_ ⟨e, rfl⟩ rfl hfld
      show (failedTask t e).result = none
      simp [failedTask, hres0.1]
    · intro hcomp
      exact resultsFailedCore ht htr rfl rfl (inv.resultsOK hcomp)
    · intro ev hev
      simp only [List.mem_append, List.mem_singleton]
      exact Or.inl (Or.inl (Or.inl hev))
  · -- success all the way
    cases Except.ok.inj (heq.symm.trans hok)
    obtain ⟨hstep, hentry, hrunpres, hnodup2, hnpf2, hcok2, hrok2⟩ :=
      doneCore v ht htr inv.nodup inv.npf inv.completedOK inv.runningOK
    refine ⟨⟨hnodup2, hnpf2, hcok2, hrok2, ?_, ?_, ?_⟩, hstep, hrunpres,
      ⟨doneTask t v, hentry, rfl, Or.inl rfl⟩, ?_⟩
    · intro s hs
      simp only [List.mem_append, List.mem_singleton] at hs
      rcases hs with ((hs | hs) | hs) | hs
      · exact logOK_step hstep (inv.logOK s hs)
      · exact Ev.noConfusion hs
      · have hsid : s = t.id := by injection hs
        subst hsid
        exact logOK_step hstep ⟨i, t, ht, rfl, inv.runningOK i t ht htr⟩
      · exact Ev.noConfusion hs
    · intro hcomp
      exact fieldsDoneCore v ht htr (inv.fieldsOK hcomp)
    · intro hcomp
      have hfresh := resultsFresh ht htr inv.nodup (inv.resultsOK hcomp)
      have hms := mapSet_fresh v hfresh
      show ResultsOK (St.mk _ (mapSet st.results t.id v) _)
      rw [hms]
      exact resultsDoneCore v ht htr inv.nodup (inv.resultsOK hcomp)
    · intro ev hev
      simp only [List.mem_append, List.mem_singleton]
      exact Or.inl (Or.inl (Or.inl hev))
  · rw [heq] at hok
    exact Except.noConfusion hok
  · -- completion notification threw; catch path, failure notification succeeded
    cases Except.ok.inj (heq.symm.trans hok)
    obtain ⟨hstep, hentry, hrunpres, hnodup2, hnpf2, hcok2, hrok2⟩ :=
      failedCore (w := failedTask (doneTask t v) e) ht htr rfl rfl rfl rfl rfl rfl rfl
        inv.nodup inv.npf inv.completedOK inv.runningOK
    refine ⟨⟨hnodup2, hnpf2, hcok2, hrok2, ?_, ?_, ?_⟩, hstep, hrunpres,
      ⟨failedTask (doneTask t v) e, hentry, rfl, Or.inr rfl⟩, ?_⟩
    · intro s hs
      simp only [List.mem_append, List.mem_singleton] at hs
      rcases hs with (((hs | hs) | hs) | hs) | hs
      · exact logOK_step hstep (inv.logOK s hs)
      · exact Ev.noConfusion hs
      · have hsid : s = t.id := by injection hs
        subst hsid
        exact logOK_step hstep ⟨i, t, ht, rfl, inv.runningOK i t ht htr⟩
      · exact Ev.noConfusion hs
      · exact Ev.noConfusion hs
    · intro hcomp
      exact absurd hC (hcomp _ _)
    · intro hcomp
      exact absurd hC (hcomp _ _)
    · intro ev hev
      simp only [List.mem_append, List.mem_singleton]
      exact Or.inl (Or.inl (Or.inl (Or.inl hev)))

/-- Running or pending entries of the settled state are untouched old
entries: the callback only produces terminal statuses. -/
lemma handleTask_pullback {ag : Agents α} {i : Nat} {st st' : St α}
    {t : TaskStep α} (ht : st.tasks[i]? = some t)
    (hok : handleTask ag i st = Except.ok st') :
    ∀ (p : Nat) (w : TaskStep α), st'.tasks[p]? = some w →
      (w.status = Status.running ∨ w.status = Status.pending) →
      st.tasks[p]? = some w := by
  have hnf : ∀ (w : TaskStep α), (w.status = Status.running ∨ w.status = Status.pending) →
      w.status ≠ Status.failed := by
    rintro w (hw | hw) hf <;> rw [hw] at hf <;> exact Status.noConfusion hf
  have hnc : ∀ (w : TaskStep α), (w.status = Status.running ∨ w.status = Status.pending) →
      w.status ≠ Status.completed := by
    rintro w (hw | hw) hf <;> rw [hw] at hf <;> exact Status.noConfusion hf
  have hlen : i < st.tasks.length := getElem?_some_lt ht
  have hfailed : ∀ (v : TaskStep α), v.status = Status.failed →
      ∀ (p : Nat) (w : TaskStep α),
      (markDependentTasksAsFailed (st.tasks.length + 1) t.id
        (st.tasks.set i v))[p]? = some w →
      (w.status = Status.running ∨ w.status = Status.pending) →
      st.tasks[p]? = some w := by
    intro v hv p w hp hw
    have hback : (st.tasks.set i v)[p]? = some w :=
      flips_notfailed_back (markDep_forall₂ _ _ _) hp (hnf w hw)
    have hpi : ¬ i = p := by
      intro h
      subst h
      rw [List.getElem?_set, if_pos rfl, if_pos hlen] at hback
      cases hback
      exact hnf v hw hv
    rw [List.getElem?_set, if_neg hpi] at hback
    exact hback
  rcases handleTask_spec ag i st ht with
    ⟨e, e2, hS, hF, heq⟩ | ⟨e, u, hS, hF, heq⟩ | ⟨u, e, e2, hS, hE, hF, heq⟩ |
    ⟨u, e, u2, hS, hE, hF, heq⟩ | ⟨u, v, u2, hS, hE, hC, heq⟩ |
    ⟨u, v, e, e2, hS, hE, hC, hF, heq⟩ | ⟨u, v, e, u2, hS, hE, hC, hF, heq⟩
  · rw [heq] at hok
    exact Except.noConfusion hok
  · cases Except.ok.inj (heq.symm.trans hok)
    exact hfailed (failedTask t e) rfl
  · rw [heq] at hok
    exact Except.noConfusion hok
  · cases Except.ok.inj (heq.symm.trans hok)
    exact hfailed (failedTask t e) rfl
  · cases Except.ok.inj (heq.symm.trans hok)
    intro p w hp hw
    have hpi : ¬ i = p := by
      intro h
      subst h
      rw [List.getElem?_set, if_pos rfl, if_pos hlen] at hp
      cases hp
      exact hnc (doneTask t v) hw rfl
    rw [List.getElem?_set, if_neg hpi] at hp
    exact hp
  · rw [heq] at hok
    exact Except.noConfusion hok
  · cases Except.ok.inj (heq.symm.trans hok)
    exact hfailed (failedTask (doneTask t v) e) rfl

/-- Pending entries that persist pointwise bound the pending count. -/
lemma pendingCount_le_of_pullback {ts T' : List (TaskStep α)}
    (hlen : T'.length = ts.length)
    (hpull : ∀ (p : Nat) (w : TaskStep α), T'[p]? = some w →
      w.status = Status.pending → ts[p]? = some w) :
    pendingCount T' ≤ pendingCount ts := by
  have h2 : List.Forall₂ (fun u w => w.status = Status.pending → w = u) ts T' := by
    refine forall₂_of_get hlen ?_
    intro p u w hu hw hp
    have := hpull p w hw hp
    rw [hu] at this
    exact (Option.some.inj this).symm
  refine countP_mono_forall₂ ?_ h2
  intro a b hr hp
  have hb : b.status = Status.pending := by simpa using hp
  rw [hr hb] at hp
  exact hp

/-- Pending entries survive `markRunning` only untouched. -/
lemma markRunning_pullback :
    ∀ (idxs : List Nat) (ts : List (TaskStep α)) (p : Nat) (w : TaskStep α),
      (markRunning idxs ts)[p]? = some w → w.status = Status.pending →
      ts[p]? = some w := by
  intro idxs
  induction idxs with
  | nil =>
    intro ts p w h _
    exact h
  | cons i rest ih =>
    intro ts p w h hw
    rw [markRunning_cons] at h
    cases hti : ts[i]? with
    | none =>
      rw [hti] at h
      exact ih ts p w h hw
    | some t =>
      rw [hti] at h
      have hmid := ih _ p w h hw
      by_cases hpi : i = p
      · subst hpi
        rw [List.getElem?_set, if_pos rfl, if_pos (getElem?_some_lt hti)] at hmid
        cases hmid
        exact absurd hw (fun hc => Status.noConfusion hc)
      · rw [List.getElem?_set, if_neg hpi] at hmid
        exact hmid

lemma markRunning_length (idxs : List Nat) (ts : List (TaskStep α)) :
    (markRunning idxs ts).length = ts.length := by
  induction idxs generalizing ts with
  | nil => rfl
  | cons i rest ih =>
    rw [markRunning_cons]
    cases hti : ts[i]? with
    | none => exact ih ts
    | some t =>
      show (markRunning rest (ts.set i { t with status := Status.running })).length =
        ts.length
      rw [ih (ts.set i { t with status := Status.running })]
      exact List.length_set ts _ _

lemma pendingCount_markRunning_le (idxs : List Nat) (ts : List (TaskStep α)) :
    pendingCount (markRunning idxs ts) ≤ pendingCount ts :=
  pendingCount_le_of_pullback (markRunning_length idxs ts)
    (markRunning_pullback idxs ts)

/-- Marking a nonempty ready set running strictly decreases the pending
count. -/
lemma pendingCount_markRunning_lt {i : Nat} {rest : List Nat}
    {ts : List (TaskStep α)} {t : TaskStep α} (hti : ts[i]? = some t)
    (hpend : t.status = Status.pending) :
    pendingCount (markRunning (i :: rest) ts) < pendingCount ts := by
  rw [markRunning_cons, hti]
  show pendingCount (markRunning rest (ts.set i { t with status := Status.running })) <
    pendingCount ts
  have hset : pendingCount (ts.set i { t with status := Status.running }) + 1 =
      pendingCount ts :=
    pendingCount_set_flip hti hpend (fun h => Status.noConfusion h)
  have hrest := pendingCount_markRunning_le rest
    (ts.set i { t with status := Status.running })
  omega

lemma runHandlers_nil (ag : Agents α) (st : St α) :
    runHandlers ag [] st = Except.ok st := rfl

lemma runHandlers_cons (ag : Agents α) (i : Nat) (rest : List Nat) (st : St α) :
    runHandlers ag (i :: rest) st =
      match handleTask ag i st with
      | Except.error e => Except.error e
      | Except.ok st1 => runHandlers ag rest st1 := rfl

/-- Settling a wave of callbacks (each over a running entry) preserves the
invariants; every listed entry ends terminal; running/pending entries of the
result were already there. -/
lemma runHandlers_preserves {ag : Agents α} :
    ∀ {idxs : List Nat} {st st' : St α},
      runHandlers ag idxs st = Except.ok st' →
      idxs.Nodup →
      (∀ j ∈ idxs, ∃ u, st.tasks[j]? = some u ∧ u.status = Status.running) →
      WInv ag st →
      WInv ag st' ∧ List.Forall₂ Step st.tasks st'.tasks ∧
      (∀ j ∈ idxs, ∃ w, st'.tasks[j]? = some w ∧
        (w.status = Status.completed ∨ w.status = Status.failed)) ∧
      (∀ ev ∈ st.log, ev ∈ st'.log) ∧
      (∀ (p : Nat) (w : TaskStep α), st'.tasks[p]? = some w →
        (w.status = Status.running ∨ w.status = Status.pending) →
        st.tasks[p]? = some w) := by
  intro idxs
  induction idxs with
  | nil =>
    intro st st' hok _ _ inv
    rw [runHandlers_nil] at hok
    cases Except.ok.inj hok
    exact ⟨inv, forall₂_refl_task (fun t => Or.inl rfl) _,
      fun j hj => absurd hj (List.not_mem_nil _),
      fun ev hev => hev, fun p w hp _ => hp⟩
  | cons i rest ih =>
    intro st st' hok hnd hrun inv
    rw [List.nodup_cons] at hnd
    obtain ⟨u0, hu0, hur0⟩ := hrun i (List.mem_cons_self _ _)
    rw [runHandlers_cons] at hok
    cases hh : handleTask ag i st with
    | error e =>
      rw [hh] at hok
      exact Except.noConfusion hok
    | ok st1 =>
      rw [hh] at hok
      obtain ⟨inv1, hstep1, hrunpres1, ⟨w, hw, hwid, hwterm⟩, hlog1⟩ :=
        handleTask_preserves hu0 hur0 hh inv
      have hpull1 := handleTask_pullback hu0 hh
      have hrest : ∀ j ∈ rest, ∃ u, st1.tasks[j]? = some u ∧
          u.status = Status.running := by
        intro j hj
        obtain ⟨u, hu, hur⟩ := hrun j (List.mem_cons_of_mem _ hj)
        exact ⟨u, hrunpres1 j u (fun h => hnd.1 (h ▸ hj)) hu hur, hur⟩
      obtain ⟨inv2, hstep2, hterm2, hlog2, hpull2⟩ := ih hok hnd.2 hrest inv1
      refine ⟨inv2,
        forall₂_task_trans (R := Step) (fun _ _ _ a b => step_trans a b) hstep1 hstep2,
        ?_, ?_, ?_⟩
      · intro j hj
        rcases List.mem_cons.mp hj with rfl | hj2
        · obtain ⟨w2, hw2, hrel⟩ := forall₂_some_left hstep2 hw
          rcases hwterm with hc | hc
          · have hww : w2 = w := hrel.eq_of_completed hc
            rw [hww] at hw2
            exact ⟨w, hw2, Or.inl hc⟩
          · have hww : w2 = w := hrel.eq_of_failed hc
            rw [hww] at hw2
            exact ⟨w, hw2, Or.inr hc⟩
        · exact hterm2 j hj2
      · exact fun ev hev => hlog2 ev (hlog1 ev hev)
      · intro p wp hp hwp
        exact hpull1 p wp (hpull2 p wp hp hwp) hwp

/-- The wave prefix preserves the invariants (the ready entries were pending
with completed dependencies, so marking them running keeps every clause). -/
lemma markRunning_preserves {ag : Agents α} {st : St α} (inv : WInv ag st) :
    WInv ag (St.mk (markRunning (readyIdxs st.tasks) st.tasks) st.results st.log) := by
  have hnd := readyIdxs_nodup st.tasks
  have hp : ∀ j ∈ readyIdxs st.tasks, ∀ t, st.tasks[j]? = some t →
      t.status = Status.pending := by
    intro j hj t hjt
    obtain ⟨t0, ht0, hp0, _⟩ := mem_readyIdxs.mp hj
    rw [hjt] at ht0
    cases ht0
    exact hp0
  have hf2 : List.Forall₂ RunStep st.tasks
      (markRunning (readyIdxs st.tasks) st.tasks) := markRunning_forall₂ hnd hp
  have hstep : List.Forall₂ Step st.tasks
      (markRunning (readyIdxs st.tasks) st.tasks) :=
    hf2.imp (fun _ _ hr => runStep_toStep hr)
  have hentry : ∀ (p : Nat) (w : TaskStep α),
      (markRunning (readyIdxs st.tasks) st.tasks)[p]? = some w →
      (¬ p ∈ readyIdxs st.tasks ∧ st.tasks[p]? = some w) ∨
      (∃ t, st.tasks[p]? = some t ∧ t.status = Status.pending ∧
        DepsCompleted st.tasks t ∧ w = { t with status := Status.running }) := by
    intro p w hw
    by_cases hmem : p ∈ readyIdxs st.tasks
    · obtain ⟨t0, ht0, hp0, hd0⟩ := mem_readyIdxs.mp hmem
      right
      refine ⟨t0, ht0, hp0, hd0, ?_⟩
      have := markRunning_get_mem hnd hmem ht0
      rw [hw] at this
      exact Option.some.inj this
    · left
      rw [markRunning_get_not_mem hmem] at hw
      exact ⟨hmem, hw⟩
  refine ⟨idsNodup_mono hstep inv.nodup, ?_, ?_, ?_, ?_, ?_, ?_⟩
  · intro p q tp uq hp1 hq1 hpp hqf
    rcases hentry p tp hp1 with ⟨_, hp2⟩ | ⟨t0, _, _, _, rfl⟩
    · rcases hentry q uq hq1 with ⟨_, hq2⟩ | ⟨u0, _, _, _, rfl⟩
      · exact inv.npf p q tp uq hp2 hq2 hpp hqf
      · exact absurd hqf (fun h => Status.noConfusion h)
    · exact absurd hpp (fun h => Status.noConfusion h)
  · intro p tp hp1 hcomp
    rcases hentry p tp hp1 with ⟨_, hp2⟩ | ⟨t0, _, _, _, rfl⟩
    · exact depsCompleted_mono hstep rfl (inv.completedOK p tp hp2 hcomp)
    · exact absurd hcomp (fun h => Status.noConfusion h)
  · intro p tp hp1 hrun
    rcases hentry p tp hp1 with ⟨_, hp2⟩ | ⟨t0, ht0, _, hd0, rfl⟩
    · exact depsCompleted_mono hstep rfl (inv.runningOK p tp hp2 hrun)
    · exact depsCompleted_mono hstep rfl hd0
  · intro s hs
    exact logOK_step hstep (inv.logOK s hs)
  · intro hcomp
    have hfld := inv.fieldsOK hcomp
    intro p tp hp1
    rcases hentry p tp hp1 with ⟨_, hp2⟩ | ⟨t0, ht0, hp0, _, rfl⟩
    · exact hfld p tp hp2
    · have h0 := (hfld p t0 ht0).1 (Or.inl hp0)
      refine ⟨?_, ?_, ?_⟩
      · intro _
        exact h0
      · intro hc
        exact absurd hc (fun h => Status.noConfusion h)
      · intro hc
        exact absurd hc (fun h => Status.noConfusion h)
  · intro hcomp
    have hr := inv.resultsOK hcomp
    refine ⟨hr.1, ?_⟩
    intro k v
    rw [hr.2 k v]
    constructor
    · rintro ⟨p, tp, hp1, hid, hcomp2, hres⟩
      have hnmem : ¬ p ∈ readyIdxs st.tasks := by
        intro hmem
        have := hp p hmem tp hp1
        rw [hcomp2] at this
        exact Status.noConfusion this
      exact ⟨p, tp, by rw [markRunning_get_not_mem hnmem]; exact hp1, hid, hcomp2, hres⟩
    · rintro ⟨p, tp, hp1, hid, hcomp2, hres⟩
      rcases hentry p tp hp1 with ⟨_, hp2⟩ | ⟨t0, _, _, _, rfl⟩
      · exact ⟨p, tp, hp2, hid, hcomp2, hres⟩
      · exact absurd hcomp2 (fun h => Status.noConfusion h)

/-- One full wave (`Promise.all` over the ready set) preserves the invariant
bundle, never produces a running task, and strictly decreases the pending
count when the ready set is nonempty. -/
lemma runWave_preserves {ag : Agents α} {st st' : St α}
    (hok : runWave ag (readyIdxs st.tasks) st = Except.ok st')
    (inv : WInv ag st)
    (hnorun : ∀ t ∈ st.tasks, t.status ≠ Status.running) :
    WInv ag st' ∧
    List.Forall₂ Step st.tasks st'.tasks ∧
    (∀ ev ∈ st.log, ev ∈ st'.log) ∧
    (∀ t ∈ st'.tasks, t.status ≠ Status.running) ∧
    (readyIdxs st.tasks ≠ [] → pendingCount st'.tasks < pendingCount st.tasks) := by
  rw [runWave] at hok
  have hnd := readyIdxs_nodup st.tasks
  have hstepA : List.Forall₂ Step st.tasks
      (markRunning (readyIdxs st.tasks) st.tasks) :=
    (markRunning_forall₂ hnd (fun j hj t hjt => by
      obtain ⟨t0, ht0, hp0, _⟩ := mem_readyIdxs.mp hj
      rw [hjt] at ht0
      cases ht0
      exact hp0)).imp (fun _ _ hr => runStep_toStep hr)
  have hrunning : ∀ j ∈ readyIdxs st.tasks,
      ∃ u, (markRunning (readyIdxs st.tasks) st.tasks)[j]? = some u ∧
        u.status = Status.running := by
    intro j hj
    obtain ⟨t0, ht0, _, _⟩ := mem_readyIdxs.mp hj
    exact ⟨{ t0 with status := Status.running }, markRunning_get_mem hnd hj ht0, rfl⟩
  obtain ⟨inv2, hstep2, hterm, hlog, hpull⟩ :=
    runHandlers_preserves hok hnd hrunning (markRunning_preserves inv)
  have hstep : List.Forall₂ Step st.tasks st'.tasks :=
    forall₂_task_trans (R := Step) (fun _ _ _ a b => step_trans a b) hstepA hstep2
  refine ⟨inv2, hstep, hlog, ?_, ?_⟩
  · intro t' hmem' hrun'
    obtain ⟨q, hq⟩ := List.mem_iff_getElem?.mp hmem'
    have hmid := hpull q t' hq (Or.inl hrun')
    by_cases hqr : q ∈ readyIdxs st.tasks
    · obtain ⟨w, hw, hwterm⟩ := hterm q hqr
      rw [hq] at hw
      cases hw
      rcases hwterm with hc | hc <;> rw [hrun'] at hc <;> exact Status.noConfusion hc
    · rw [markRunning_get_not_mem hqr] at hmid
      exact hnorun t' (List.mem_iff_getElem?.mpr ⟨q, hmid⟩) hrun'
  · intro hne
    cases hr : readyIdxs st.tasks with
    | nil => exact absurd hr hne
    | cons i0 rest =>
      obtain ⟨t0, ht0, hp0, _⟩ := mem_readyIdxs.mp (hr ▸ List.mem_cons_self i0 rest)
      have h1 : pendingCount (markRunning (readyIdxs st.tasks) st.tasks) <
          pendingCount st.tasks := by
        rw [hr]
        exact pendingCount_markRunning_lt ht0 hp0
      have h2 : pendingCount st'.tasks ≤
          pendingCount (markRunning (readyIdxs st.tasks) st.tasks) := by
        refine pendingCount_le_of_pullback hstep2.length_eq.symm ?_
        intro p w hp hwp
        exact hpull p w hp (Or.inr hwp)
      omega

lemma execLoop_zero (ag : Agents α) (st : St α) :
    execLoop ag 0 st = RunOutcome.timeout := rfl

lemma execLoop_succ (ag : Agents α) (fuel : Nat) (st : St α) :
    execLoop ag (fuel + 1) st =
      if st.tasks.any (fun t => t.status == Status.pending ||
          t.status == Status.running) then
        if (readyIdxs st.tasks).isEmpty then
          if st.tasks.any (fun t => t.status == Status.running) then
            execLoop ag fuel st
          else RunOutcome.ok st
        else
          match runWave ag (readyIdxs st.tasks) st with
          | Except.error (e, st1) => RunOutcome.thrown e st1
          | Except.ok st1 => execLoop ag fuel st1
      else RunOutcome.ok st := rfl

/-- The scheduling loop preserves the invariants across any normally
returning run. -/
lemma execLoop_ok_preserves {ag : Agents α} :
    ∀ (fuel : Nat) {st st' : St α},
      execLoop ag fuel st = RunOutcome.ok st' →
      WInv ag st →
      (∀ t ∈ st.tasks, t.status ≠ Status.running) →
      WInv ag st' ∧ (∀ t ∈ st'.tasks, t.status ≠ Status.running) ∧
      List.Forall₂ Step st.tasks st'.tasks := by
  intro fuel
  induction fuel with
  | zero =>
    intro st st' hok
    rw [execLoop_zero] at hok
    exact absurd hok (fun h => RunOutcome.noConfusion h)
  | succ fuel ih =>
    intro st st' hok inv hnorun
    rw [execLoop_succ] at hok
    by_cases hcond : st.tasks.any (fun t => t.status == Status.pending ||
        t.status == Status.running) = true
    · rw [if_pos hcond] at hok
      by_cases hready : (readyIdxs st.tasks).isEmpty = true
      · rw [if_pos hready] at hok
        have hanyrun : ¬ st.tasks.any (fun t => t.status == Status.running) = true := by
          rw [Bool.not_eq_true, List.any_eq_false]
          intro t htm hbeq
          exact hnorun t htm (by simpa using hbeq)
        rw [if_neg hanyrun] at hok
        cases RunOutcome.ok.inj hok
        exact ⟨inv, hnorun, forall₂_refl_task (fun t => Or.inl rfl) _⟩
      · rw [if_neg hready] at hok
        cases hw : runWave ag (readyIdxs st.tasks) st with
        | error ep =>
          obtain ⟨e2, st1⟩ := ep
          rw [hw] at hok
          exact absurd hok (fun h => RunOutcome.noConfusion h)
        | ok st1 =>
          rw [hw] at hok
          obtain ⟨inv1, hstep1, _, hnorun1, _⟩ := runWave_preserves hw inv hnorun
          obtain ⟨inv2, hnorun2, hstep2⟩ := ih hok inv1 hnorun1
          exact ⟨inv2, hnorun2,
            forall₂_task_trans (R := Step) (fun _ _ _ a b => step_trans a b) hstep1 hstep2⟩
    · rw [if_neg hcond] at hok
      cases RunOutcome.ok.inj hok
      exact ⟨inv, hnorun, forall₂_refl_task (fun t => Or.inl rfl) _⟩

/-- With fuel above the pending count and no running task, the loop cannot
run out of fuel: every wave strictly decreases the pending count. -/
lemma execLoop_no_timeout {ag : Agents α} :
    ∀ (fuel : Nat) {st : St α},
      WInv ag st → (∀ t ∈ st.tasks, t.status ≠ Status.running) →
      pendingCount st.tasks < fuel →
      execLoop ag fuel st ≠ RunOutcome.timeout := by
  intro fuel
  induction fuel with
  | zero =>
    intro st _ _ hlt
    exact absurd hlt (Nat.not_lt_zero _)
  | succ fuel ih =>
    intro st inv hnorun hlt
    rw [execLoop_succ]
    by_cases hcond : st.tasks.any (fun t => t.status == Status.pending ||
        t.status == Status.running) = true
    · rw [if_pos hcond]
      by_cases hready : (readyIdxs st.tasks).isEmpty = true
      · rw [if_pos hready]
        have hanyrun : ¬ st.tasks.any (fun t => t.status == Status.running) = true := by
          rw [Bool.not_eq_true, List.any_eq_false]
          intro t htm hbeq
          exact hnorun t htm (by simpa using hbeq)
        rw [if_neg hanyrun]
        exact fun h => RunOutcome.noConfusion h
      · rw [if_neg hready]
        cases hw : runWave ag (readyIdxs st.tasks) st with
        | error ep =>
          obtain ⟨e2, st1⟩ := ep
          exact fun h => RunOutcome.noConfusion h
        | ok st1 =>
          obtain ⟨inv1, _, _, hnorun1, hdec⟩ := runWave_preserves hw inv hnorun
          have hne : readyIdxs st.tasks ≠ [] := by
            intro h
            rw [h] at hready
            exact hready rfl
          have := hdec hne
          exact ih inv1 hnorun1 (by omega)
    · rw [if_neg hcond]
      exact fun h => RunOutcome.noConfusion h

/-- With closed dependencies, an acyclicity rank, no failed dependency under
a pending task, and nothing running, a pending task forces a nonempty ready
set (pick the pending task of minimal rank). -/
lemma ready_nonempty {ts : List (TaskStep α)} (hnpf : NPF ts)
    (hclosed : ∀ t ∈ ts, ∀ d ∈ t.dependencies, ∃ u ∈ ts, u.id = d)
    (rank : String → Nat)
    (hrank : ∀ t ∈ ts, ∀ d ∈ t.dependencies, rank d < rank t.id)
    (hnorun : ∀ t ∈ ts, t.status ≠ Status.running) :
    ∀ (n : Nat) (p : Nat) (tp : TaskStep α), ts[p]? = some tp →
      tp.status = Status.pending → rank tp.id ≤ n → readyIdxs ts ≠ [] := by
  intro n
  induction n with
  | zero =>
    intro p tp hp hpend hrk
    by_cases hall : ∀ d ∈ tp.dependencies, ∃ w, lookupTask ts d = some w ∧
        w.status = Status.completed
    · exact List.ne_nil_of_mem (mem_readyIdxs.mpr ⟨tp, hp, hpend, hall⟩)
    · exfalso
      push_neg at hall
      obtain ⟨d, hd, hnotc⟩ := hall
      obtain ⟨u, hu_mem, huid⟩ :=
        hclosed tp (List.mem_iff_getElem?.mpr ⟨p, hp⟩) d hd
      obtain ⟨w, hw0⟩ := lookupTask_isSome_of_mem hu_mem
      rw [huid] at hw0
      obtain ⟨hwid, hwmem⟩ := lookupTask_some_mem hw0
      cases hwst : w.status with
      | completed => exact hnotc w hw0 hwst
      | running => exact hnorun w hwmem hwst
      | failed =>
        obtain ⟨q, hq⟩ := List.mem_iff_getElem?.mp hwmem
        exact hnpf p q tp w hp hq hpend hwst (by rw [hwid]; exact hd)
      | pending =>
        have h1 := hrank tp (List.mem_iff_getElem?.mpr ⟨p, hp⟩) d hd
        omega
  | succ n ih =>
    intro p tp hp hpend hrk
    by_cases hall : ∀ d ∈ tp.dependencies, ∃ w, lookupTask ts d = some w ∧
        w.status = Status.completed
    · exact List.ne_nil_of_mem (mem_readyIdxs.mpr ⟨tp, hp, hpend, hall⟩)
    · push_neg at hall
      obtain ⟨d, hd, hnotc⟩ := hall
      obtain ⟨u, hu_mem, huid⟩ :=
        hclosed tp (List.mem_iff_getElem?.mpr ⟨p, hp⟩) d hd
      obtain ⟨w, hw0⟩ := lookupTask_isSome_of_mem hu_mem
      rw [huid] at hw0
      obtain ⟨hwid, hwmem⟩ := lookupTask_some_mem hw0
      cases hwst : w.status with
      | completed => exact absurd hwst (hnotc w hw0)
      | running => exact absurd hwst (hnorun w hwmem)
      | failed =>
        obtain ⟨q, hq⟩ := List.mem_iff_getElem?.mp hwmem
        exact absurd (by rw [hwid]; exact hd) (hnpf p q tp w hp hq hpend hwst)
      | pending =>
        obtain ⟨q, hq⟩ := List.mem_iff_getElem?.mp hwmem
        have h1 := hrank tp (List.mem_iff_getElem?.mpr ⟨p, hp⟩) d hd
        refine ih q w hq hwst ?_
        rw [hwid]
        omega

lemma closed_mono {ts T' : List (TaskStep α)} (hstep : List.Forall₂ Step ts T')
    (hclosed : ∀ t ∈ ts, ∀ d ∈ t.dependencies, ∃ u ∈ ts, u.id = d) :
    ∀ t' ∈ T', ∀ d ∈ t'.dependencies, ∃ u' ∈ T', u'.id = d := by
  intro t' hmem' d hd
  obtain ⟨p, hp⟩ := List.mem_iff_getElem?.mp hmem'
  obtain ⟨t, ht, hrel⟩ := forall₂_some_right hstep hp
  rw [hrel.deps_eq] at hd
  obtain ⟨u, hu_mem, huid⟩ := hclosed t (List.mem_iff_getElem?.mpr ⟨p, ht⟩) d hd
  obtain ⟨q, hq⟩ := List.mem_iff_getElem?.mp hu_mem
  obtain ⟨u', hu', hrel2⟩ := forall₂_some_left hstep hq
  exact ⟨u', List.mem_iff_getElem?.mpr ⟨q, hu'⟩, by rw [hrel2.id_eq, huid]⟩

lemma rank_mono {ts T' : List (TaskStep α)} (hstep : List.Forall₂ Step ts T')
    (rank : String → Nat)
    (hrank : ∀ t ∈ ts, ∀ d ∈ t.dependencies, rank d < rank t.id) :
    ∀ t' ∈ T', ∀ d ∈ t'.dependencies, rank d < rank t'.id := by
  intro t' hmem' d hd
  obtain ⟨p, hp⟩ := List.mem_iff_getElem?.mp hmem'
  obtain ⟨t, ht, hrel⟩ := forall₂_some_right hstep hp
  rw [hrel.deps_eq] at hd
  rw [hrel.id_eq]
  exact hrank t (List.mem_iff_getElem?.mpr ⟨p, ht⟩) d hd

/-- A normally returning run over a closed acyclic collection leaves no task
pending or running: the stall branch is unreachable. -/
lemma execLoop_ok_no_pending {ag : Agents α} (rank : String → Nat) :
    ∀ (fuel : Nat) {st st' : St α},
      execLoop ag fuel st = RunOutcome.ok st' →
      WInv ag st →
      (∀ t ∈ st.tasks, t.status ≠ Status.running) →
      (∀ t ∈ st.tasks, ∀ d ∈ t.dependencies, ∃ u ∈ st.tasks, u.id = d) →
      (∀ t ∈ st.tasks, ∀ d ∈ t.dependencies, rank d < rank t.id) →
      ∀ t ∈ st'.tasks, t.status ≠ Status.pending ∧ t.status ≠ Status.running := by
  intro fuel
  induction fuel with
  | zero =>
    intro st st' hok
    rw [execLoop_zero] at hok
    exact absurd hok (fun h => RunOutcome.noConfusion h)
  | succ fuel ih =>
    intro st st' hok inv hnorun hclosed hrank
    rw [execLoop_succ] at hok
    by_cases hcond : st.tasks.any (fun t => t.status == Status.pending ||
        t.status == Status.running) = true
    · rw [if_pos hcond] at hok
      by_cases hready : (readyIdxs st.tasks).isEmpty = true
      · rw [if_pos hready] at hok
        have hanyrun : ¬ st.tasks.any (fun t => t.status == Status.running) = true := by
          rw [Bool.not_eq_true, List.any_eq_false]
          intro t htm hbeq
          exact hnorun t htm (by simpa using hbeq)
        rw [if_neg hanyrun] at hok
        cases RunOutcome.ok.inj hok
        intro t hmem
        refine ⟨?_, hnorun t hmem⟩
        intro hpend
        obtain ⟨p, hp⟩ := List.mem_iff_getElem?.mp hmem
        have := ready_nonempty inv.npf hclosed rank hrank hnorun
          (rank t.id) p t hp hpend (le_refl _)
        rw [List.isEmpty_iff] at hready
        exact this hready
      · rw [if_neg hready] at hok
        cases hw : runWave ag (readyIdxs st.tasks) st with
        | error ep =>
          obtain ⟨e2, st1⟩ := ep
          rw [hw] at hok
          exact absurd hok (fun h => RunOutcome.noConfusion h)
        | ok st1 =>
          rw [hw] at hok
          obtain ⟨inv1, hstep1, _, hnorun1, _⟩ := runWave_preserves hw inv hnorun
          exact ih hok inv1 hnorun1 (closed_mono hstep1 hclosed)
            (rank_mono hstep1 rank hrank)
    · rw [if_neg hcond] at hok
      cases RunOutcome.ok.inj hok
      rw [Bool.not_eq_true, List.any_eq_false] at hcond
      intro t hmem
      have := hcond t hmem
      constructor
      · intro hc
        exact this (by rw [hc]; rfl)
      · intro hc
        exact this (by rw [hc]; rfl)


/-- The invariants hold at the start of `executeTaskDAG`. -/
lemma WInv_initial {ag : Agents α} {ts : List (TaskStep α)}
    (hnodup : IdsNodup ts) (hinit : InitialTasks ts) :
    WInv ag (St.mk ts [] []) := by
  refine ⟨hnodup, ?_, ?_, ?_, ?_, ?_, ?_⟩
  · intro p q tp uq hp hq hpp hqf
    have := (hinit uq (List.mem_iff_getElem?.mpr ⟨q, hq⟩)).1
    rw [hqf] at this
    exact absurd this (fun h => Status.noConfusion h)
  · intro p tp hp hcomp
    have := (hinit tp (List.mem_iff_getElem?.mpr ⟨p, hp⟩)).1
    rw [hcomp] at this
    exact absurd this (fun h => Status.noConfusion h)
  · intro p tp hp hrun
    have := (hinit tp (List.mem_iff_getElem?.mpr ⟨p, hp⟩)).1
    rw [hrun] at this
    exact absurd this (fun h => Status.noConfusion h)
  · intro s hs
    exact absurd hs (List.not_mem_nil _)
  · intro _ p tp hp
    obtain ⟨hst, hres, herr⟩ := hinit tp (List.mem_iff_getElem?.mpr ⟨p, hp⟩)
    refine ⟨fun _ => ⟨hres, herr⟩, ?_, ?_⟩
    · intro hc
      rw [hst] at hc
      exact absurd hc (fun h => Status.noConfusion h)
    · intro hc
      rw [hst] at hc
      exact absurd hc (fun h => Status.noConfusion h)
  · intro _
    refine ⟨List.nodup_nil, ?_⟩
    intro k v
    constructor
    · intro h
      exact absurd h (List.not_mem_nil _)
    · rintro ⟨p, tp, hp, _, hcomp, _⟩
      have := (hinit tp (List.mem_iff_getElem?.mpr ⟨p, hp⟩)).1
      rw [hcomp] at this
      exact absurd this (fun h => Status.noConfusion h)

/-- After a propagator pass, no pending task still lists the propagated id:
the worklist covered all pending dependents, and each was flipped when
reached. -/
lemma markDep_complete (fuel : Nat) (f : String) :
    ∀ (idxs : List Nat) (ts : List (TaskStep α)),
      (∀ (j : Nat) (t : TaskStep α), ts[j]? = some t → t.status = Status.pending →
        f ∈ t.dependencies → j ∈ idxs) →
      ∀ (i : Nat) (t' : TaskStep α), (markDepGo fuel f idxs ts)[i]? = some t' →
      t'.status = Status.pending → ¬ f ∈ t'.dependencies := by
  intro idxs
  induction idxs with
  | nil =>
    intro ts hcover i t' hi hp hf
    rw [markDepGo_nil] at hi
    exact absurd (hcover i t' hi hp hf) (List.not_mem_nil _)
  | cons i0 rest ih =>
    intro ts hcover i t' hi hp hf
    cases hti0 : ts[i0]? with
    | none =>
      have hgo : markDepGo fuel f (i0 :: rest) ts = markDepGo fuel f rest ts := by
        rw [markDepGo_cons, hti0]
      rw [hgo] at hi
      refine ih ts ?_ i t' hi hp hf
      intro j t hj hjp hjf
      rcases List.mem_cons.mp (hcover j t hj hjp hjf) with rfl | hm
      · rw [hj] at hti0
        exact Option.noConfusion hti0
      · exact hm
    | some t0 =>
      by_cases hp0 : t0.status = Status.pending
      · have hgo : markDepGo fuel f (i0 :: rest) ts =
            markDepGo fuel f rest
              (markDependentTasksAsFailed fuel t0.id
                (ts.set i0 (failedTask t0 (depFailMsg f)))) := by
          rw [markDepGo_cons, hti0]
          simp only
          rw [if_pos hp0]
        rw [hgo] at hi
        refine ih (markDependentTasksAsFailed fuel t0.id
          (ts.set i0 (failedTask t0 (depFailMsg f)))) ?_ i t' hi hp hf
        intro j t hj hjp hjf
        have hmid : (ts.set i0 (failedTask t0 (depFailMsg f)))[j]? = some t :=
          flips_pending_back (markDep_forall₂ _ _ _) hj hjp
        have hji0 : ¬ i0 = j := by
          intro h
          subst h
          rw [List.getElem?_set, if_pos rfl, if_pos (getElem?_some_lt hti0)] at hmid
          cases hmid
          simp [failedTask] at hjp
        rw [List.getElem?_set, if_neg hji0] at hmid
        rcases List.mem_cons.mp (hcover j t hmid hjp hjf) with rfl | hm
        · exact absurd rfl hji0
        · exact hm
      · have hgo : markDepGo fuel f (i0 :: rest) ts = markDepGo fuel f rest ts := by
          rw [markDepGo_cons, hti0]
          simp only
          rw [if_neg hp0]
        rw [hgo] at hi
        refine ih ts ?_ i t' hi hp hf
        intro j t hj hjp hjf
        rcases List.mem_cons.mp (hcover j t hj hjp hjf) with rfl | hm
        · rw [hj] at hti0
          cases hti0
          exact absurd hjp hp0
        · exact hm

/-- Top-level form: one full propagator invocation leaves no pending task
that lists the failed id. -/
lemma markDep_complete_top (fuel : Nat) (f : String) (ts : List (TaskStep α)) :
    ∀ (i : Nat) (t' : TaskStep α),
      (markDependentTasksAsFailed (fuel + 1) f ts)[i]? = some t' →
      t'.status = Status.pending → ¬ f ∈ t'.dependencies := by
  intro i t' hi hp hf
  rw [markDep_succ] at hi
  refine markDep_complete fuel f (dependentIdxs f ts) ts ?_ i t' hi hp hf
  intro j t hj _ hjf
  exact mem_dependentIdxs.mpr ⟨t, hj, hjf⟩

/-- Re-running the propagator on the same failed id is a no-op: a fixed
point was reached. -/
lemma markDep_idem (fuel fuel2 : Nat) (f : String) (ts : List (TaskStep α)) :
    markDependentTasksAsFailed (fuel2 + 1) f
      (markDependentTasksAsFailed (fuel + 1) f ts) =
    markDependentTasksAsFailed (fuel + 1) f ts := by
  rw [markDep_succ fuel2]
  refine markDepGo_noop fuel2 f _ _ ?_
  intro i hi t hti hp
  obtain ⟨t1, ht1, hcont⟩ := mem_dependentIdxs.mp hi
  rw [hti] at ht1
  cases ht1
  exact markDep_complete_top fuel f ts i t hti hp hcont

/-- Auxiliary for `markDep_msgs`: one worklist pass, assuming the shape
lemma for the recursive propagator calls at the same fuel. -/
lemma markDepGo_msgs_aux (fuel : Nat)
    (hkey : ∀ (f : String) (ts : List (TaskStep α)) (i : Nat) (t' : TaskStep α),
      (markDependentTasksAsFailed fuel f ts)[i]? = some t' →
      ts[i]? = some t' ∨
      ∃ t g, ts[i]? = some t ∧ t.status = Status.pending ∧
        t' = failedTask t (depFailMsg g) ∧ g ∈ t.dependencies ∧
        (g = f ∨ ∃ (j : Nat) (u : TaskStep α),
          (markDependentTasksAsFailed fuel f ts)[j]? = some u ∧ u.id = g ∧
          u.status = Status.failed)) :
    ∀ (f : String) (idxs : List Nat) (ts : List (TaskStep α)),
      (∀ j ∈ idxs, ∀ t : TaskStep α, ts[j]? = some t → f ∈ t.dependencies) →
      ∀ (i : Nat) (t' : TaskStep α), (markDepGo fuel f idxs ts)[i]? = some t' →
      ts[i]? = some t' ∨
      ∃ t g, ts[i]? = some t ∧ t.status = Status.pending ∧
        t' = failedTask t (depFailMsg g) ∧ g ∈ t.dependencies ∧
        (g = f ∨ ∃ (j : Nat) (u : TaskStep α),
          (markDepGo fuel f idxs ts)[j]? = some u ∧ u.id = g ∧
          u.status = Status.failed) := by
  intro f idxs
  induction idxs with
  | nil =>
    intro ts _ i t' h
    rw [markDepGo_nil] at h ⊢
    exact Or.inl h
  | cons i0 rest ih =>
    intro ts hcover i t' h
    cases hti0 : ts[i0]? with
    | none =>
      have hgo : markDepGo fuel f (i0 :: rest) ts = markDepGo fuel f rest ts := by
        rw [markDepGo_cons, hti0]
      rw [hgo] at h ⊢
      exact ih ts (fun j hj t hjt => hcover j (List.mem_cons_of_mem _ hj) t hjt) i t' h
    | some t0 =>
      by_cases hp0 : t0.status = Status.pending
      · have hgo : markDepGo fuel f (i0 :: rest) ts =
            markDepGo fuel f rest
              (markDependentTasksAsFailed fuel t0.id
                (ts.set i0 (failedTask t0 (depFailMsg f)))) := by
          rw [markDepGo_cons, hti0]
          simp only
          rw [if_pos hp0]
        rw [hgo] at h ⊢
        have hlen0 : i0 < ts.length := getElem?_some_lt hti0
        have hmid_i0 : (ts.set i0 (failedTask t0 (depFailMsg f)))[i0]? =
            some (failedTask t0 (depFailMsg f)) := by
          rw [List.getElem?_set, if_pos rfl, if_pos hlen0]
        have hmid2_i0 : (markDependentTasksAsFailed fuel t0.id
            (ts.set i0 (failedTask t0 (depFailMsg f))))[i0]? =
            some (failedTask t0 (depFailMsg f)) :=
          flips_nonpending_fwd (markDep_forall₂ _ _ _) hmid_i0
            (fun hc => Status.noConfusion hc)
        have hout_i0 : (markDepGo fuel f rest (markDependentTasksAsFailed fuel t0.id
            (ts.set i0 (failedTask t0 (depFailMsg f)))))[i0]? =
            some (failedTask t0 (depFailMsg f)) :=
          flips_nonpending_fwd ((markDep_go_flips fuel).2 f rest _) hmid2_i0
            (fun hc => Status.noConfusion hc)
        have hcover2 : ∀ j ∈ rest, ∀ t : TaskStep α,
            (markDependentTasksAsFailed fuel t0.id
              (ts.set i0 (failedTask t0 (depFailMsg f))))[j]? = some t →
            f ∈ t.dependencies := by
          intro j hj t hjt
          obtain ⟨t1, ht1, hfs⟩ := forall₂_some_right (markDep_forall₂ _ _ _) hjt
          have hdeps : t.dependencies = t1.dependencies := by
            rcases hfs with rfl | ⟨g, _, rfl⟩
            · rfl
            · rfl
          by_cases hji0 : i0 = j
          · subst hji0
            rw [hmid_i0] at ht1
            cases ht1
            rw [hdeps]
            exact hcover i0 (List.mem_cons_self _ _) t0 hti0
          · rw [List.getElem?_set, if_neg hji0] at ht1
            rw [hdeps]
            exact hcover j (List.mem_cons_of_mem _ hj) t1 ht1
        rcases ih _ hcover2 i t' h with hmid2eq |
          ⟨t1, g, ht1, hp1, hform, hgdep, hgsrc⟩
        · rcases hkey t0.id _ i t' hmid2eq with hmideq |
            ⟨t1, g, ht1, hp1, hform, hgdep, hgsrc⟩
          · by_cases hii0 : i0 = i
            · subst hii0
              rw [hmid_i0] at hmideq
              cases hmideq
              right
              exact ⟨t0, f, hti0, hp0, rfl,
                hcover i0 (List.mem_cons_self _ _) t0 hti0, Or.inl rfl⟩
            · rw [List.getElem?_set, if_neg hii0] at hmideq
              exact Or.inl hmideq
          · have hii0 : ¬ i0 = i := by
              intro hii
              subst hii
              rw [hmid_i0] at ht1
              cases ht1
              simp [failedTask] at hp1
            rw [List.getElem?_set, if_neg hii0] at ht1
            right
            refine ⟨t1, g, ht1, hp1, hform, hgdep, ?_⟩
            rcases hgsrc with rfl | ⟨j, u, hj, hu1, hu2⟩
            · exact Or.inr ⟨i0, failedTask t0 (depFailMsg f), hout_i0, rfl, rfl⟩
            · right
              exact ⟨j, u,
                flips_nonpending_fwd ((markDep_go_flips fuel).2 f rest _) hj
                  (by rw [hu2]; exact fun hc => Status.noConfusion hc), hu1, hu2⟩
        · have hmid1 : (ts.set i0 (failedTask t0 (depFailMsg f)))[i]? = some t1 :=
            flips_pending_back (markDep_forall₂ _ _ _) ht1 hp1
          have hii0 : ¬ i0 = i := by
            intro hii
            subst hii
            rw [hmid_i0] at hmid1
            cases hmid1
            simp [failedTask] at hp1
          rw [List.getElem?_set, if_neg hii0] at hmid1
          right
          exact ⟨t1, g, hmid1, hp1, hform, hgdep, hgsrc⟩
      · have hgo : markDepGo fuel f (i0 :: rest) ts = markDepGo fuel f rest ts := by
          rw [markDepGo_cons, hti0]
          simp only
          rw [if_neg hp0]
        rw [hgo] at h ⊢
        exact ih ts (fun j hj t hjt => hcover j (List.mem_cons_of_mem _ hj) t hjt) i t' h

/-- Shape of every change one propagator invocation makes: a pending task is
flipped to failed with a message naming one of its dependencies, which is
either the propagated id itself or a task failed in the result. -/
lemma markDep_msgs :
    ∀ (fuel : Nat) (f : String) (ts : List (TaskStep α)) (i : Nat) (t' : TaskStep α),
      (markDependentTasksAsFailed fuel f ts)[i]? = some t' →
      ts[i]? = some t' ∨
      ∃ t g, ts[i]? = some t ∧ t.status = Status.pending ∧
        t' = failedTask t (depFailMsg g) ∧ g ∈ t.dependencies ∧
        (g = f ∨ ∃ (j : Nat) (u : TaskStep α),
          (markDependentTasksAsFailed fuel f ts)[j]? = some u ∧ u.id = g ∧
          u.status = Status.failed) := by
  intro fuel
  induction fuel with
  | zero =>
    intro f ts i t' h
    rw [markDep_zero] at h
    exact Or.inl h
  | succ n ih =>
    intro f ts i t' h
    rw [markDep_succ] at h
    have hcov : ∀ j ∈ dependentIdxs f ts, ∀ t : TaskStep α, ts[j]? = some t →
        f ∈ t.dependencies := by
      intro j hj t hjt
      obtain ⟨t1, ht1, hcont⟩ := mem_dependentIdxs.mp hj
      rw [hjt] at ht1
      cases ht1
      exact hcont
    rcases markDepGo_msgs_aux n ih f (dependentIdxs f ts) ts hcov i t' h with hL |
      ⟨t, g, h1, h2, h3, h4, h5⟩
    · exact Or.inl hL
    · right
      refine ⟨t, g, h1, h2, h3, h4, ?_⟩
      rcases h5 with h5 | ⟨j, u, hj, hu1, hu2⟩
      · exact Or.inl h5
      · right
        refine ⟨j, u, ?_, hu1, hu2⟩
        rw [markDep_succ]
        exact hj


lemma dependsOn_src {ts : List (TaskStep α)} {b a : String}
    (h : DependsOn ts b a) : ∃ (i : Nat) (t : TaskStep α), ts[i]? = some t ∧
      t.id = b := by
  induction h with
  | @direct i t a ht _ => exact ⟨i, t, ht, rfl⟩
  | step _ _ ih1 _ => exact ih1

/-- Dependence is preserved by the run: ids and dependency lists never
change. -/
lemma dependsOn_mono {ts T' : List (TaskStep α)}
    (hstep : List.Forall₂ Step ts T') {b a : String}
    (h : DependsOn ts b a) : DependsOn T' b a := by
  induction h with
  | @direct i t a0 ht hmem =>
    obtain ⟨t', ht', hrel⟩ := forall₂_some_left hstep ht
    have := DependsOn.direct ht' (by rw [hrel.deps_eq]; exact hmem)
    rw [hrel.id_eq] at this
    exact this
  | step _ _ ih1 ih2 => exact DependsOn.step ih1 ih2

/-- In a violation-free final state (no running task, every completed task's
dependencies completed, no pending task on a failed one), nothing pending or
completed reaches a failed task. -/
lemma chain_no_failed {F : List (TaskStep α)} (hnodup : IdsNodup F) (hnpf : NPF F)
    (hcok : CompletedOK F) (hnorun : ∀ t ∈ F, t.status ≠ Status.running) :
    ∀ {b a : String}, DependsOn F b a →
      ∀ (i : Nat) (t : TaskStep α), F[i]? = some t → t.id = b →
        (t.status = Status.pending ∨ t.status = Status.completed) →
      ∀ (j : Nat) (u : TaskStep α), F[j]? = some u → u.id = a →
        u.status ≠ Status.failed := by
  intro b a hdep
  induction hdep with
  | @direct i0 t0 a0 ht0 hmem =>
    intro i t hti htid hst j u hju huid huf
    have hii : i = i0 := idsNodup_get_inj hnodup hti ht0 htid
    subst hii
    rw [hti] at ht0
    cases ht0
    rcases hst with hp | hc
    · exact hnpf i j _ u hti hju hp huf (by rw [huid]; exact hmem)
    · obtain ⟨w, hw, hwc⟩ := hcok i _ hti hc a0 hmem
      obtain ⟨hwid, hwmem⟩ := lookupTask_some_mem hw
      obtain ⟨q, hq⟩ := List.mem_iff_getElem?.mp hwmem
      have hjq : j = q := idsNodup_get_inj hnodup hju hq (by rw [huid, hwid])
      subst hjq
      rw [hju] at hq
      cases hq
      rw [hwc] at huf
      exact Status.noConfusion huf
  | @step b c a hbc hca ih1 ih2 =>
    intro i t hti htid hst j u hju huid huf
    obtain ⟨ic, tc, htc, htcid⟩ := dependsOn_src hca
    cases hc : tc.status with
    | running => exact hnorun tc (List.mem_iff_getElem?.mpr ⟨ic, htc⟩) hc
    | failed => exact ih1 i t hti htid hst ic tc htc htcid hc
    | pending => exact ih2 ic tc htc htcid (Or.inl hc) j u hju huid huf
    | completed => exact ih2 ic tc htc htcid (Or.inr hc) j u hju huid huf

/-- Everything reachable from a task whose dependencies are completed is
completed (used to rule out a dispatched task depending on a failed one). -/
lemma chain_completed {F : List (TaskStep α)} (hnodup : IdsNodup F)
    (hcok : CompletedOK F) :
    ∀ {b a : String}, DependsOn F b a →
      ∀ (i : Nat) (t : TaskStep α), F[i]? = some t → t.id = b →
        DepsCompleted F t →
      ∀ (j : Nat) (u : TaskStep α), F[j]? = some u → u.id = a →
        u.status = Status.completed := by
  intro b a hdep
  induction hdep with
  | @direct i0 t0 a0 ht0 hmem =>
    intro i t hti htid hdc j u hju huid
    have hii : i = i0 := idsNodup_get_inj hnodup hti ht0 htid
    subst hii
    rw [hti] at ht0
    cases ht0
    obtain ⟨w, hw, hwc⟩ := hdc a0 hmem
    obtain ⟨hwid, hwmem⟩ := lookupTask_some_mem hw
    obtain ⟨q, hq⟩ := List.mem_iff_getElem?.mp hwmem
    have hjq : j = q := idsNodup_get_inj hnodup hju hq (by rw [huid, hwid])
    subst hjq
    rw [hju] at hq
    cases hq
    exact hwc
  | @step b c a hbc hca ih1 ih2 =>
    intro i t hti htid hdc j u hju huid
    obtain ⟨ic, tc, htc, htcid⟩ := dependsOn_src hca
    have hcomp : tc.status = Status.completed := ih1 i t hti htid hdc ic tc htc htcid
    exact ih2 ic tc htc htcid (hcok ic tc htc hcomp) j u hju huid

/-- When `notifyTaskFailed` never rejects, every callback settles normally:
all other throws are caught by the `try`/`catch` of the callback. -/
lemma handleTask_no_error {ag : Agents α}
    (hnf : ∀ (tf : TaskStep α) (e e2 : String),
      ag.notifyFailed tf e ≠ Except.error e2) (i : Nat) (st : St α) :
    ∃ st', handleTask ag i st = Except.ok st' := by
  cases ht : st.tasks[i]? with
  | none => exact ⟨st, by simp [handleTask, ht]⟩
  | some t =>
    rcases handleTask_spec ag i st ht with
      ⟨e, e2, _, hF, _⟩ | ⟨e, u, _, _, hh⟩ | ⟨u, e, e2, _, _, hF, _⟩ |
      ⟨u, e, u2, _, _, _, hh⟩ | ⟨u, v, u2, _, _, _, hh⟩ |
      ⟨u, v, e, e2, _, _, _, hF, _⟩ | ⟨u, v, e, u2, _, _, _, _, hh⟩
    · exact absurd hF (hnf _ _ _)
    · exact ⟨_, hh⟩
    · exact absurd hF (hnf _ _ _)
    · exact ⟨_, hh⟩
    · exact ⟨_, hh⟩
    · exact absurd hF (hnf _ _ _)
    · exact ⟨_, hh⟩

lemma runHandlers_no_error {ag : Agents α}
    (hnf : ∀ (tf : TaskStep α) (e e2 : String),
      ag.notifyFailed tf e ≠ Except.error e2) (idxs : List Nat) :
    ∀ st : St α, ∃ st', runHandlers ag idxs st = Except.ok st' := by
  induction idxs with
  | nil => intro st; exact ⟨st, rfl⟩
  | cons i rest ih =>
    intro st
    obtain ⟨st1, h1⟩ := handleTask_no_error hnf i st
    obtain ⟨st2, h2⟩ := ih st1
    refine ⟨st2, ?_⟩
    rw [runHandlers_cons, h1]
    exact h2

/-- When `notifyTaskFailed` never rejects, no exception escapes the loop. -/
lemma execLoop_no_thrown {ag : Agents α}
    (hnf : ∀ (tf : TaskStep α) (e e2 : String),
      ag.notifyFailed tf e ≠ Except.error e2) :
    ∀ (fuel : Nat) (st : St α) (e : String) (st' : St α),
      execLoop ag fuel st ≠ RunOutcome.thrown e st' := by
  intro fuel
  induction fuel with
  | zero =>
    intro st e st' h
    rw [execLoop_zero] at h
    exact RunOutcome.noConfusion h
  | succ fuel ih =>
    intro st e st' h
    rw [execLoop_succ] at h
    by_cases hact : st.tasks.any (fun t => t.status == Status.pending ||
        t.status == Status.running) = true
    · rw [if_pos hact] at h
      by_cases hrdy : (readyIdxs st.tasks).isEmpty = true
      · rw [if_pos hrdy] at h
        by_cases hrun : st.tasks.any (fun t => t.status == Status.running) = true
        · rw [if_pos hrun] at h
          exact ih st e st' h
        · rw [if_neg hrun] at h
          exact RunOutcome.noConfusion h
      · rw [if_neg hrdy] at h
        obtain ⟨st2, h2⟩ := runHandlers_no_error hnf (readyIdxs st.tasks)
          (St.mk (markRunning (readyIdxs st.tasks) st.tasks) st.results st.log)
        have hw : runWave ag (readyIdxs st.tasks) st = Except.ok st2 := h2
        rw [hw] at h
        exact ih st2 e st' h
    · rw [if_neg hact] at h
      exact RunOutcome.noConfusion h

end Inv

/-! ### The claims -/

/-- C1 (amended): a notifier failure never aborts the scheduling run, provided
the task-failed notifier itself never rejects: `executeTaskDAG` never ends
`thrown`.  (The original claim's further assertion that a notifier failure
leaves the failing task's own status/error untouched is refuted by the
counterexample below: a task-started notifier rejection is routed through the
per-task catch block and marks that task failed.) -/
theorem c1_notifier_no_abort {α : Type} (ag : Agents α)
    (hnf : ∀ (tf : TaskStep α) (e e2 : String),
      ag.notifyFailed tf e ≠ Except.error e2)
    (tasks : List (TaskStep α)) (e : String) (st' : St α) :
    executeTaskDAG ag tasks ≠ RunOutcome.thrown e st' :=
  execLoop_no_thrown hnf (tasks.length + 1) (St.mk tasks [] []) e st'

/-- C1 witness: with a rejecting task-started notifier (and an accepting
task-failed notifier) the one-task run is still not aborted. -/
theorem c1_notifier_no_abort_witness :
    executeTaskDAG agStartBad [tA] ≠ RunOutcome.thrown "notif-down" (St.mk [] [] []) :=
  c1_notifier_no_abort agStartBad (fun _ _ _ h => Except.noConfusion h) [tA]
    "notif-down" (St.mk [] [] [])

/-- C1 counterexample: the task-started notifier rejecting changes the task's
status (pending to failed) and error (none to the notifier's message) — the
executor is never invoked, refuting the claim that notifier failures never
change a task's status. -/
theorem c1_notifier_marks_failed_cex :
    tA.status = Status.pending ∧ tA.error = none ∧
    executeTaskDAG agStartBad [tA] = RunOutcome.ok (St.mk [tAFailN] []
      [Ev.startNote "a", Ev.failNote "a"]) ∧
    tAFailN.status = Status.failed ∧ tAFailN.error = some "notif-down" := by
  refine ⟨rfl, rfl, by decide, by decide, by decide⟩

/-- C2 (amended): terminal entries are never overwritten by the wave dispatch
(only ready, hence pending, positions are marked running) nor by the settling
of a wave's callbacks; and provided the task-completed notifier never rejects,
every task of a normally returning run ends with exactly the fields its
terminal status prescribes (`result` only when completed, `error` only when
failed).  (Without that proviso the claim fails: see the counterexample.) -/
theorem c2_terminal_fields {α : Type} {ag : Agents α} (hcomp : CompOK ag)
    {ts : List (TaskStep α)} {st' : St α}
    (hnodup : IdsNodup ts) (hinit : InitialTasks ts)
    (hok : executeTaskDAG ag ts = RunOutcome.ok st') :
    FieldsOK st'.tasks ∧
    (∀ (idxs : List Nat) (st1 st2 : St α),
      runHandlers ag idxs st1 = Except.ok st2 → idxs.Nodup →
      (∀ j ∈ idxs, ∃ u, st1.tasks[j]? = some u ∧ u.status = Status.running) →
      WInv ag st1 →
      ∀ (p : Nat) (t : TaskStep α), st1.tasks[p]? = some t →
        (t.status = Status.completed ∨ t.status = Status.failed) →
        st2.tasks[p]? = some t) ∧
    (∀ (ts0 : List (TaskStep α)) (p : Nat) (t : TaskStep α),
      ts0[p]? = some t → t.status ≠ Status.pending →
      (markRunning (readyIdxs ts0) ts0)[p]? = some t) := by
  have hnorun0 : ∀ t ∈ ts, t.status ≠ Status.running := by
    intro t htm h
    rw [(hinit t htm).1] at h
    exact Status.noConfusion h
  obtain ⟨inv', _, _⟩ := execLoop_ok_preserves (ts.length + 1) hok
    (WInv_initial hnodup hinit) hnorun0
  refine ⟨inv'.fieldsOK hcomp, ?_, ?_⟩
  · intro idxs st1 st2 hrh hnd hready hinv p t hp hterm
    obtain ⟨_, hstep, _, _, _⟩ := runHandlers_preserves hrh hnd hready hinv
    obtain ⟨t', ht', hr⟩ := forall₂_some_left hstep hp
    rcases hterm with hc | hf
    · rw [hr.eq_of_completed hc] at ht'
      exact ht'
    · rw [hr.eq_of_failed hf] at ht'
      exact ht'
  · intro ts0 p t hp hnp
    have hmem : ¬ p ∈ readyIdxs ts0 := by
      intro hm
      obtain ⟨t2, ht2, hpend, _⟩ := mem_readyIdxs.mp hm
      rw [hp] at ht2
      cases ht2
      exact hnp hpend
    rw [markRunning_get_not_mem hmem]
    exact hp

/-- C2 witness: the all-succeeding one-task run ends with disciplined fields
(the completed task has a result and no error). -/
theorem c2_terminal_fields_witness : FieldsOK [tADone] :=
  (@c2_terminal_fields Nat okAgents (fun _ _ h => Except.noConfusion h) [tA]
    (St.mk [tADone] [("a", 1)]
      [Ev.startNote "a", Ev.execCall "a", Ev.completeNote "a"])
    (by unfold IdsNodup; decide) (by unfold InitialTasks; decide)
    (by decide)).1

/-- C2 counterexample: when the task-completed notifier rejects, the already
completed task is re-marked failed with both its result and its error set —
the terminal status is overwritten and both payload fields end populated. -/
theorem c2_both_fields_cex :
    executeTaskDAG agCompBad [tA] = RunOutcome.ok (St.mk [tACompBad] [("a", 1)]
      [Ev.startNote "a", Ev.execCall "a", Ev.completeNote "a", Ev.failNote "a"]) ∧
    tACompBad.status = Status.failed ∧ tACompBad.result = some 1 ∧
    tACompBad.error = some "nc-down" := by
  refine ⟨by decide, by decide, by decide, by decide⟩

/-- C3: a task transitions to running only through the wave dispatch over the
ready set, and then it was pending with every dependency id resolving to a
completed task; settling a callback and the failure propagator never make an
entry running. -/
theorem c3_no_premature_dispatch {α : Type} (ts0 : List (TaskStep α)) :
    (∀ (i : Nat) (t u : TaskStep α), ts0[i]? = some t →
      (markRunning (readyIdxs ts0) ts0)[i]? = some u →
      u.status = Status.running → t.status ≠ Status.running →
      t.status = Status.pending ∧
        ∀ d ∈ t.dependencies, ∃ w, lookupTask ts0 d = some w ∧
          w.status = Status.completed) ∧
    (∀ (ag : Agents α) (j : Nat) (st st' : St α),
      handleTask ag j st = Except.ok st' →
      ∀ (p : Nat) (w : TaskStep α), st'.tasks[p]? = some w →
        w.status = Status.running → st.tasks[p]? = some w) ∧
    (∀ (fuel : Nat) (f : String) (p : Nat) (w : TaskStep α),
      (markDependentTasksAsFailed fuel f ts0)[p]? = some w →
      w.status = Status.running → ts0[p]? = some w) := by
  refine ⟨?_, ?_, ?_⟩
  · intro i t u ht hu hur htnr
    by_cases hmem : i ∈ readyIdxs ts0
    · obtain ⟨t', ht', hp, hd⟩ := mem_readyIdxs.mp hmem
      rw [ht] at ht'
      cases ht'
      exact ⟨hp, hd⟩
    · rw [markRunning_get_not_mem hmem] at hu
      rw [ht] at hu
      cases hu
      exact absurd hur htnr
  · intro ag j st st' hok p w hp hw
    cases htj : st.tasks[j]? with
    | none =>
      have hid : handleTask ag j st = Except.ok st := by simp [handleTask, htj]
      rw [hid] at hok
      cases Except.ok.inj hok
      exact hp
    | some t =>
      exact handleTask_pullback htj hok p w hp (Or.inl hw)
  · intro fuel f p w hp hw
    refine flips_notfailed_back (markDep_forall₂ fuel f ts0) hp ?_
    rw [hw]
    exact fun h => Status.noConfusion h

/-- C4 (amended): in a normally returning run, a task `b` that transitively
depends on a task `a` that ended failed itself ends failed, and `b`'s executor
was never invoked.  (The unconditional claim fails: when the task-failed
notifier rejects, the rejection escapes the catch block before the propagator
runs and aborts the run, leaving a pending dependent pending — see the
counterexample.) -/
theorem c4_propagation_ok_runs {α : Type} {ag : Agents α}
    {ts : List (TaskStep α)} {st' : St α}
    (hnodup : IdsNodup ts) (hinit : InitialTasks ts)
    (hok : executeTaskDAG ag ts = RunOutcome.ok st')
    {b a : String} (hdep : DependsOn st'.tasks b a)
    {j : Nat} {ua : TaskStep α} (hja : st'.tasks[j]? = some ua)
    (haid : ua.id = a) (haf : ua.status = Status.failed)
    {i : Nat} {tb : TaskStep α} (hib : st'.tasks[i]? = some tb) (hbid : tb.id = b) :
    tb.status = Status.failed ∧ ¬ Ev.execCall b ∈ st'.log := by
  have hnorun0 : ∀ t ∈ ts, t.status ≠ Status.running := by
    intro t htm h
    rw [(hinit t htm).1] at h
    exact Status.noConfusion h
  obtain ⟨inv', hnorun', _⟩ := execLoop_ok_preserves (ts.length + 1) hok
    (WInv_initial hnodup hinit) hnorun0
  constructor
  · cases hstat : tb.status with
    | failed => rfl
    | running =>
      exact absurd hstat (hnorun' tb (List.mem_iff_getElem?.mpr ⟨i, hib⟩))
    | pending =>
      exact absurd haf (chain_no_failed inv'.nodup inv'.npf inv'.completedOK
        hnorun' hdep i tb hib hbid (Or.inl hstat) j ua hja haid)
    | completed =>
      exact absurd haf (chain_no_failed inv'.nodup inv'.npf inv'.completedOK
        hnorun' hdep i tb hib hbid (Or.inr hstat) j ua hja haid)
  · intro hlog
    obtain ⟨p, tp, hp, hpid, hdc⟩ := inv'.logOK b hlog
    have hc2 : ua.status = Status.completed :=
      chain_completed inv'.nodup inv'.completedOK hdep p tp hp hpid hdc j ua hja haid
    rw [haf] at hc2
    exact Status.noConfusion hc2

/-- C4 witness: in the run where only task `a`'s executor rejects, the
dependent `b` ends failed with the propagated message, and `b`'s executor was
never called. -/
theorem c4_propagation_witness :
    tBFailDep.status = Status.failed ∧
    ¬ Ev.execCall "b" ∈ [Ev.startNote "a", Ev.execCall "a", Ev.failNote "a"] := by
  have hdep : DependsOn [tAFailB, tBFailDep] "b" "a" :=
    @DependsOn.direct Nat [tAFailB, tBFailDep] 1 tBFailDep "a" rfl (by decide)
  exact @c4_propagation_ok_runs Nat agExecBad [tA, tB]
    (St.mk [tAFailB, tBFailDep] [] [Ev.startNote "a", Ev.execCall "a", Ev.failNote "a"])
    (by unfold IdsNodup; decide) (by unfold InitialTasks; decide) (by decide)
    "b" "a" hdep 0 tAFailB rfl rfl (by decide) 1 tBFailDep rfl rfl

/-- C4 counterexample: with a rejecting task-failed notifier, the run aborts
when `a` fails and its pending transitive dependent `b` stays pending — it
neither ends failed nor is ever propagated to. -/
theorem c4_pending_after_throw_cex :
    executeTaskDAG agFailBad [tA, tB] = RunOutcome.thrown "nf-down" (St.mk
      [tAFailB, tB] [] [Ev.startNote "a", Ev.execCall "a", Ev.failNote "a"]) ∧
    DependsOn [tAFailB, tB] "b" "a" ∧
    tAFailB.status = Status.failed ∧ tB.status = Status.pending := by
  refine ⟨by decide, ?_, by decide, rfl⟩
  exact @DependsOn.direct Nat [tAFailB, tB] 1 tB "a" rfl (by decide)

/-- C5: one propagator invocation leaves every non-pending task exactly
unchanged; every changed entry was a pending task flipped to failed with the
"Dependency g failed" message for one of its dependencies g, where g is the
propagated id or itself ends failed; afterwards no pending task still lists
the propagated id among its dependencies; the recursion on each newly failed
id runs to a fixed point — in the output, a still-pending task can depend on a
failed task only if a task with that id was already failed in the input, so no
pending dependent of any newly failed task remains and multi-level chains are
fully collapsed; and re-running the propagator is a no-op. -/
theorem c5_propagator_contract {α : Type} (f : String) (ts : List (TaskStep α)) :
    (∀ (i : Nat) (t : TaskStep α), ts[i]? = some t → t.status ≠ Status.pending →
      (markDependentTasksAsFailed (ts.length + 1) f ts)[i]? = some t) ∧
    (∀ (i : Nat) (t' : TaskStep α),
      (markDependentTasksAsFailed (ts.length + 1) f ts)[i]? = some t' →
      ts[i]? = some t' ∨
      ∃ t g, ts[i]? = some t ∧ t.status = Status.pending ∧
        t' = failedTask t (depFailMsg g) ∧ g ∈ t.dependencies ∧
        (g = f ∨ ∃ (j : Nat) (u : TaskStep α),
          (markDependentTasksAsFailed (ts.length + 1) f ts)[j]? = some u ∧
          u.id = g ∧ u.status = Status.failed)) ∧
    (∀ (i : Nat) (t' : TaskStep α),
      (markDependentTasksAsFailed (ts.length + 1) f ts)[i]? = some t' →
      t'.status = Status.pending → ¬ f ∈ t'.dependencies) ∧
    (∀ (i j : Nat) (t u : TaskStep α),
      (markDependentTasksAsFailed (ts.length + 1) f ts)[i]? = some t →
      (markDependentTasksAsFailed (ts.length + 1) f ts)[j]? = some u →
      t.status = Status.pending → u.status = Status.failed →
      u.id ∈ t.dependencies →
      ∃ (q : Nat) (w : TaskStep α), ts[q]? = some w ∧ w.id = u.id ∧
        w.status = Status.failed) ∧
    markDependentTasksAsFailed (ts.length + 1) f
      (markDependentTasksAsFailed (ts.length + 1) f ts) =
      markDependentTasksAsFailed (ts.length + 1) f ts := by
  refine ⟨?_, ?_, ?_, ?_, ?_⟩
  · intro i t ht hnp
    exact flips_nonpending_fwd (markDep_forall₂ _ _ _) ht hnp
  · intro i t' h
    exact markDep_msgs (ts.length + 1) f ts i t' h
  · intro i t' h
    exact markDep_complete_top ts.length f ts i t' h
  · intro i j t u hti htj hp hf hdep
    refine (markDep_clears (ts.length + 1)).1
      (fun _ uid => ∃ (q : Nat) (w : TaskStep α), ts[q]? = some w ∧
        w.id = uid ∧ w.status = Status.failed)
      f ts ?_ ?_ i j t u hti htj hp hf hdep
    · have := pendingCount_le_length ts
      omega
    · intro p q tp uq hp2 hq2 hpp hqf hdep2
      exact Or.inl ⟨q, uq, hq2, rfl, hqf⟩
  · exact markDep_idem ts.length ts.length f ts

/-- C6: the ready set is exactly the pending tasks whose every dependency id
resolves to a completed task; a pending task with no dependencies is always
ready; and the computation is a pure function of the collection, so applying
it twice to the same input yields the same set. -/
theorem c6_ready_set_contract {α : Type} (ts : List (TaskStep α)) :
    (∀ i : Nat, i ∈ readyIdxs ts ↔ ∃ t, ts[i]? = some t ∧
      t.status = Status.pending ∧
      ∀ d ∈ t.dependencies, ∃ u, lookupTask ts d = some u ∧
        u.status = Status.completed) ∧
    (∀ (i : Nat) (t : TaskStep α), ts[i]? = some t → t.dependencies = [] →
      t.status = Status.pending → i ∈ readyIdxs ts) ∧
    readyIdxs ts = readyIdxs ts := by
  refine ⟨fun i => mem_readyIdxs, ?_, rfl⟩
  intro i t ht hdeps hp
  refine mem_readyIdxs.mpr ⟨t, ht, hp, ?_⟩
  intro d hd
  rw [hdeps] at hd
  cases hd

/-- C7 (amended): provided the task-completed notifier never rejects, the map
a normally returning run hands back has an entry for an id exactly when that
task ended completed, and the entry is the task's stored result.  (Without the
proviso the claim fails: the success branch inserts the result before
notifying, and a task-completed notifier rejection then re-marks the task
failed while its entry stays in the map — see the counterexample.) -/
theorem c7_results_map {α : Type} {ag : Agents α} (hcomp : CompOK ag)
    {ts : List (TaskStep α)} {st' : St α} (hnodup : IdsNodup ts)
    (hinit : InitialTasks ts)
    (hok : executeTaskDAG ag ts = RunOutcome.ok st') (k : String) (v : α) :
    mapGet st'.results k = some v ↔
      ∃ (i : Nat) (t : TaskStep α), st'.tasks[i]? = some t ∧ t.id = k ∧
        t.status = Status.completed ∧ t.result = some v := by
  have hnorun0 : ∀ t ∈ ts, t.status ≠ Status.running := by
    intro t htm h
    rw [(hinit t htm).1] at h
    exact Status.noConfusion h
  obtain ⟨inv', _, _⟩ := execLoop_ok_preserves (ts.length + 1) hok
    (WInv_initial hnodup hinit) hnorun0
  obtain ⟨hkeys, hiff⟩ := inv'.resultsOK hcomp
  constructor
  · intro hget
    exact (hiff k v).mp (mapGet_mem hget)
  · intro hex
    exact mapGet_of_mem_nodup hkeys ((hiff k v).mpr hex)

/-- C7 witness: the all-succeeding one-task run's map holds exactly the entry
for the completed task. -/
theorem c7_results_map_witness :
    mapGet [("a", (1 : Nat))] "a" = some 1 ↔
      ∃ (i : Nat) (t : TaskStep Nat), [tADone][i]? = some t ∧ t.id = "a" ∧
        t.status = Status.completed ∧ t.result = some 1 :=
  @c7_results_map Nat okAgents (fun _ _ h => Except.noConfusion h) [tA]
    (St.mk [tADone] [("a", 1)]
      [Ev.startNote "a", Ev.execCall "a", Ev.completeNote "a"])
    (by unfold IdsNodup; decide) (by unfold InitialTasks; decide)
    (by decide) "a" 1

/-- C7 counterexample: after a task-completed notifier rejection the run's map
keeps the entry for task `a` although `a`'s final status is failed — the map
contains an entry for a task that did not end completed. -/
theorem c7_failed_entry_cex :
    executeTaskDAG agCompBad [tA] = RunOutcome.ok (St.mk [tACompBad] [("a", 1)]
      [Ev.startNote "a", Ev.execCall "a", Ev.completeNote "a", Ev.failNote "a"]) ∧
    mapGet [("a", (1 : Nat))] "a" = some 1 ∧
    tACompBad.status ≠ Status.completed := by
  refine ⟨by decide, by decide, by decide⟩

/-- C8: from any state whose ready set is empty with nothing running (a cycle
or an unresolved dependency id), one more loop iteration returns normally with
the state untouched — pending tasks stay pending, nothing is force-failed, no
exception is raised; in particular a whole run over such a collection returns
it unchanged. -/
theorem c8_stall_preserves_pending {α : Type} (ag : Agents α)
    (ts : List (TaskStep α)) (hready : readyIdxs ts = [])
    (hnorun : ∀ t ∈ ts, t.status ≠ Status.running) :
    executeTaskDAG ag ts = RunOutcome.ok (St.mk ts [] []) ∧
    ∀ (fuel : Nat) (st : St α), readyIdxs st.tasks = [] →
      (∀ t ∈ st.tasks, t.status ≠ Status.running) →
      execLoop ag (fuel + 1) st = RunOutcome.ok st := by
  have hgen : ∀ (fuel : Nat) (st : St α), readyIdxs st.tasks = [] →
      (∀ t ∈ st.tasks, t.status ≠ Status.running) →
      execLoop ag (fuel + 1) st = RunOutcome.ok st := by
    intro fuel st hrdy hnr
    rw [execLoop_succ]
    by_cases hact : st.tasks.any (fun t => t.status == Status.pending ||
        t.status == Status.running) = true
    · rw [if_pos hact]
      have hrdy2 : (readyIdxs st.tasks).isEmpty = true := by
        rw [hrdy]
        rfl
      rw [if_pos hrdy2]
      have hanyrun : ¬ st.tasks.any (fun t => t.status == Status.running) = true := by
        rw [Bool.not_eq_true, List.any_eq_false]
        intro t htm hbeq
        exact hnr t htm (by simpa using hbeq)
      rw [if_neg hanyrun]
    · rw [if_neg hact]
  refine ⟨?_, hgen⟩
  show execLoop ag (ts.length + 1) (St.mk ts [] []) = RunOutcome.ok (St.mk ts [] [])
  exact hgen ts.length (St.mk ts [] []) hready hnorun

/-- C8 witness: the two-task cycle stalls — the run returns normally with both
tasks still pending and no exception. -/
theorem c8_stall_witness :
    executeTaskDAG okAgents [tX, tY] = RunOutcome.ok (St.mk [tX, tY] [] []) :=
  (c8_stall_preserves_pending okAgents [tX, tY] (by decide) (by decide)).1

/-- C9: on a collection with distinct ids, all tasks initially pending,
dependency ids all resolving into the collection, and a rank function
witnessing acyclicity, the run never exhausts its fuel (each wave settles at
least one pending task), and a normal return leaves no task pending or
running. -/
theorem c9_acyclic_terminates {α : Type} (ag : Agents α)
    (ts : List (TaskStep α)) (rank : String → Nat)
    (hnodup : IdsNodup ts) (hinit : InitialTasks ts)
    (hclosed : ∀ t ∈ ts, ∀ d ∈ t.dependencies, ∃ u ∈ ts, u.id = d)
    (hrank : ∀ t ∈ ts, ∀ d ∈ t.dependencies, rank d < rank t.id) :
    executeTaskDAG ag ts ≠ RunOutcome.timeout ∧
    ∀ st', executeTaskDAG ag ts = RunOutcome.ok st' →
      ∀ t ∈ st'.tasks, t.status ≠ Status.pending ∧ t.status ≠ Status.running := by
  have hnorun0 : ∀ t ∈ ts, t.status ≠ Status.running := by
    intro t htm h
    rw [(hinit t htm).1] at h
    exact Status.noConfusion h
  constructor
  · show execLoop ag (ts.length + 1) (St.mk ts [] []) ≠ RunOutcome.timeout
    refine execLoop_no_timeout (ts.length + 1) (WInv_initial hnodup hinit) hnorun0 ?_
    show pendingCount ts < ts.length + 1
    have := pendingCount_le_length ts
    omega
  · intro st' hok
    have hok2 : execLoop ag (ts.length + 1) (St.mk ts [] []) = RunOutcome.ok st' := hok
    exact execLoop_ok_no_pending rank (ts.length + 1) hok2
      (WInv_initial hnodup hinit) hnorun0 hclosed hrank

/-- C9 witness: the two-task chain with the topological rank terminates. -/
theorem c9_terminates_witness :
    executeTaskDAG okAgents [tA, tB] ≠ RunOutcome.timeout :=
  (c9_acyclic_terminates okAgents [tA, tB] rankAB (by unfold IdsNodup; decide)
    (by unfold InitialTasks; decide) (by decide) (by unfold rankAB; decide)).1

/-- C10: on an empty task collection the run returns immediately with an empty
result map, no log entry (so no executor or notifier call) and no task. -/
theorem c10_empty_run {α : Type} (ag : Agents α) :
    executeTaskDAG ag ([] : List (TaskStep α)) = RunOutcome.ok (St.mk [] [] []) :=
  rfl

end Miyabi
